import Mathlib

/-!
Verification development for the cruxlines repository: a tool that ranks
source-code definitions by cross-file reference graphs.

The Rust source is shallowly embedded:
* machine floats (f64) in the scoring path are modelled by `F := Option ℚ`,
  where `none` stands for NaN and `some q` for a finite value; the arithmetic
  used by the scoring path (add, mul, div, partial_cmp) is modelled with NaN
  propagation.  Overflow to infinity is outside the model.
* hash maps are modelled as association lists built with the same
  entry-or-default updates the source performs; iteration order of a model
  map is its insertion order (one of the orders a hash map may present; no
  theorem below depends on it).
* interned strings (lasso Spur handles) are modelled either as the strings
  themselves (wherever only equality of handles matters, which is sound
  because the interner is injective) or as Nat handles together with an
  explicit interner state (wherever handle ordering or the intern/resolve
  round trip matters).
* Rust sort_by is modelled as insertion sort with the very comparator the
  source passes; only sortedness and permutation facts are used.
-/

namespace Cruxlines

/-! ## Ordering helpers (model of Rust core Ordering combinators) -/

theorem ordering_then_eq_gt (o₁ o₂ : Ordering) :
    o₁.then o₂ = .gt ↔ o₁ = .gt ∨ (o₁ = .eq ∧ o₂ = .gt) := by
  cases o₁ <;> simp [Ordering.then]

theorem ordering_then_swap (o₁ o₂ : Ordering) :
    (o₁.then o₂).swap = o₁.swap.then o₂.swap := by
  cases o₁ <;> cases o₂ <;> rfl

/-! ## Model of f64 in the scoring path -/

/-- Model of a scoring f64: `none` is NaN, `some q` a finite value. -/
abbrev F := Option ℚ

/-- Model of f64 addition restricted to finite-or-NaN values. -/
def addF : F → F → F
  | some a, some b => some (a + b)
  | _, _ => none

/-- Model of f64 multiplication restricted to finite-or-NaN values. -/
def mulF : F → F → F
  | some a, some b => some (a * b)
  | _, _ => none

/-- Model of f64 division. In the source the divisor is a name count that is
at least 1, so the division-by-zero branch of f64 is never exercised; ℚ
division (which yields 0 at 0) is therefore a faithful abstraction. -/
def divF : F → F → F
  | some a, some b => some (a / b)
  | _, _ => none

/-- Comparator on ℚ, the model of f64 total comparison of finite values. -/
def qcmp (a b : ℚ) : Ordering :=
  if a < b then .lt else if a = b then .eq else .gt

/-- Model of f64::partial_cmp: `none` exactly when either side is NaN. -/
def pcmpF : F → F → Option Ordering
  | some a, some b => some (qcmp a b)
  | _, _ => none

theorem qcmp_eq_gt (a b : ℚ) : qcmp a b = .gt ↔ b < a := by
  unfold qcmp; split_ifs with h₁ h₂
  · constructor
    · intro h; simp at h
    · intro h; exact absurd h (by linarith)
  · constructor
    · intro h; simp at h
    · intro h; exact absurd h₂ (by intro h'; subst h'; exact lt_irrefl a h)
  · constructor
    · intro _
      rcases lt_trichotomy a b with h | h | h
      · exact absurd h h₁
      · exact absurd h h₂
      · exact h
    · intro _; rfl

theorem qcmp_eq_eq (a b : ℚ) : qcmp a b = .eq ↔ a = b := by
  unfold qcmp; split_ifs with h₁ h₂
  · constructor
    · intro h; simp at h
    · intro h; exact absurd h (ne_of_lt h₁)
  · exact ⟨fun _ => h₂, fun _ => rfl⟩
  · constructor
    · intro h; simp at h
    · intro h; exact absurd h h₂

theorem qcmp_swap (a b : ℚ) : qcmp a b = (qcmp b a).swap := by
  rcases lt_trichotomy a b with h | h | h
  · have h₁ : ¬ b < a := by linarith
    have h₂ : b ≠ a := by intro h'; exact absurd h (by simp [h'])
    simp [qcmp, h, h₁, h₂, Ordering.swap]
  · simp [qcmp, h, Ordering.swap]
  · have h₁ : ¬ a < b := by linarith
    have h₂ : a ≠ b := by intro h'; exact absurd h (by simp [h'])
    simp [qcmp, h, h₁, h₂, Ordering.swap]

/-- Comparator on Nat, the model of the derived Ord on interned Spur handles
(u32 numeric order, i.e. the order in which strings were first interned). -/
def ncmp (a b : Nat) : Ordering :=
  if a < b then .lt else if a = b then .eq else .gt

theorem ncmp_eq_gt (a b : Nat) : ncmp a b = .gt ↔ b < a := by
  unfold ncmp; split_ifs with h₁ h₂
  · constructor
    · intro h; simp at h
    · intro h; exact absurd h (by omega)
  · constructor
    · intro h; simp at h
    · intro h; exact absurd h (by omega)
  · exact ⟨fun _ => by omega, fun _ => rfl⟩

theorem ncmp_eq_eq (a b : Nat) : ncmp a b = .eq ↔ a = b := by
  unfold ncmp; split_ifs with h₁ h₂
  · constructor
    · intro h; simp at h
    · intro h; exact absurd h (by omega)
  · exact ⟨fun _ => h₂, fun _ => rfl⟩
  · constructor
    · intro h; simp at h
    · intro h; exact absurd h h₂

theorem ncmp_swap (a b : Nat) : ncmp a b = (ncmp b a).swap := by
  unfold ncmp
  rcases Nat.lt_trichotomy a b with h | h | h
  · have h₁ : ¬ b < a := by omega
    have h₂ : ¬ b = a := by omega
    simp [h, h₁, h₂, Ordering.swap]
  · have h₁ : ¬ a < a := by omega
    simp [h, h₁, Ordering.swap]
  · have h₁ : ¬ a < b := by omega
    have h₂ : ¬ a = b := by omega
    simp [h, h₁, h₂, Ordering.swap]

/-! ## Association-list model of the hash maps used by the pipeline -/

/-- First-entry lookup, model of HashMap::get. -/
def lookupL {κ β : Type} [DecidableEq κ] : List (κ × β) → κ → Option β
  | [], _ => none
  | (k', v) :: rest, k => if k' = k then some v else lookupL rest k

/-- Model of map.entry(k).or_insert_with(dflt) followed by an in-place
update f of the entry. -/
def updateAssoc {κ β : Type} [DecidableEq κ] (k : κ) (f : β → β) (dflt : β) :
    List (κ × β) → List (κ × β)
  | [] => [(k, f dflt)]
  | (k', v) :: rest =>
      if k' = k then (k', f v) :: rest else (k', v) :: updateAssoc k f dflt rest

theorem lookupL_updateAssoc {κ β : Type} [DecidableEq κ]
    (k k' : κ) (f : β → β) (dflt : β) (m : List (κ × β)) :
    lookupL (updateAssoc k f dflt m) k' =
      if k' = k then some (f ((lookupL m k).getD dflt)) else lookupL m k' := by
  induction m with
  | nil =>
      by_cases h : k' = k
      · subst h; simp [updateAssoc, lookupL]
      · have h' : ¬ (k = k') := fun h' => h h'.symm
        simp [updateAssoc, lookupL, h', h]
  | cons e rest ih =>
      obtain ⟨k₀, v₀⟩ := e
      by_cases h₀ : k₀ = k
      · subst h₀
        by_cases h : k' = k₀
        · subst h; simp [updateAssoc, lookupL]
        · have h' : ¬ (k₀ = k') := fun h' => h h'.symm
          simp [updateAssoc, lookupL, h', h]
      · by_cases h : k' = k
        · subst h
          have hne : ¬ (k₀ = k') := h₀
          simp [updateAssoc, h₀, lookupL, hne, ih]
        · by_cases h₁ : k₀ = k'
          · subst h₁
            simp [updateAssoc, h₀, lookupL, h]
          · simp [updateAssoc, h₀, lookupL, h₁, ih, h]

/-! ## Data model (src/find_references.rs, src/languages/mod.rs)

`Loc κ` embeds `Location`: `path` and `name` are interned keys of type `κ`
(`κ := String` when only handle equality matters, `κ := Nat` when the Spur
handle order itself is under study), `line` and `column` are 1-based. -/

/-- Embedding of Location from src/find_references.rs. -/
structure Loc (κ : Type) where
  path : κ
  line : Nat
  column : Nat
  name : κ
deriving DecidableEq, Repr

/-- Embedding of Ecosystem from src/languages/mod.rs. -/
inductive Ecosystem where
  | c | dotnet | go | java | php | python | javascript | rust
deriving DecidableEq, Repr

/-- Embedding of ReferenceEdge from src/find_references.rs. -/
structure ReferenceEdge (κ : Type) where
  definition : Loc κ
  usage : Loc κ
  ecosystem : Ecosystem
deriving DecidableEq, Repr

/-- Embedding of OutputRow from src/analysis.rs. -/
structure OutputRow (κ : Type) where
  rank : F
  local_score : F
  file_rank : F
  definition : Loc κ
  definition_line : String
  references : List (Loc κ)
deriving DecidableEq, Repr

/-! ## Comparators used by the sorts in src/analysis.rs

The source sorts references by the tuple `(path, line, column, name)` and
rows by `rank` descending (partial_cmp, NaN treated as Equal) then the same
tuple of the definition.  `path` and `name` are Spur handles, whose derived
Ord is numeric handle order; the generic `kcmp` argument stands for that
Ord instance of the key type. -/

/-- Tuple comparator `(path, line, column, name)` of a Location. -/
def cmpKeyLoc {κ : Type} (kcmp : κ → κ → Ordering) (a b : Loc κ) : Ordering :=
  (kcmp a.path b.path).then
    ((ncmp a.line b.line).then
      ((ncmp a.column b.column).then (kcmp a.name b.name)))

/-- Row comparator of the output sort in cruxlines_from_inputs /
cruxlines_from_paths: rank descending with NaN-as-equal, then the
definition key tuple ascending. -/
def cmpRows {κ : Type} (kcmp : κ → κ → Ordering) (a b : OutputRow κ) : Ordering :=
  ((pcmpF b.rank a.rank).getD .eq).then
    (cmpKeyLoc kcmp a.definition b.definition)

/-- Model of Vec::sort_by with a comparator: insertion sort on the relation
"comparator does not answer Greater". -/
def sortByCmp {α : Type} (c : α → α → Ordering) (l : List α) : List α :=
  List.insertionSort (fun a b => c a b ≠ .gt) l

/-! ## Embedding of src/analysis.rs -/

/-- Embedding of the name_counts accumulation loop of
cruxlines_from_inputs / cruxlines_from_paths:
for each grouped key, bump the count of its name. -/
def mkNameCounts {κ : Type} [DecidableEq κ] (keys : List (Loc κ)) : List (κ × Nat) :=
  keys.foldl (fun m d => updateAssoc d.name (· + 1) 0 m) []

/-- Per-reference weight of build_rows:
file_rank.get(path).unwrap_or(0.0) * frecency.get(path).unwrap_or(1.0). -/
def refWeight {κ : Type} [DecidableEq κ]
    (file_ranks frecency : List (κ × F)) (r : Loc κ) : F :=
  mulF ((lookupL file_ranks r.path).getD (some 0))
    ((lookupL frecency r.path).getD (some 1))

/-- Sum of per-reference weights (f64 Sum folds left from 0.0). -/
def weightedRefs {κ : Type} [DecidableEq κ]
    (file_ranks frecency : List (κ × F)) (refs : List (Loc κ)) : F :=
  (refs.map (refWeight file_ranks frecency)).foldl addF (some 0)

/-- Embedding of build_rows from src/analysis.rs: for each grouped entry,
sort its references by (path, line, column, name), compute the weighted
reference sum, divide by the name count, multiply by the definition file
rank, and attach the recorded definition line. -/
def build_rows {κ : Type} [DecidableEq κ] (kcmp : κ → κ → Ordering)
    (grouped : List (Loc κ × List (Loc κ)))
    (file_ranks : List (κ × F)) (frecency : List (κ × F))
    (name_counts : List (κ × Nat)) (definition_lines : List (Loc κ × String)) :
    List (OutputRow κ) :=
  grouped.map (fun e =>
    let definition := e.1
    let references := sortByCmp (cmpKeyLoc kcmp) e.2
    let name_count : F := some (((lookupL name_counts definition.name).getD 1 : Nat) : ℚ)
    let weighted_refs := weightedRefs file_ranks frecency references
    let local_score := divF weighted_refs name_count
    let file_rank := (lookupL file_ranks definition.path).getD (some 0)
    let rank := mulF local_score file_rank
    let definition_line := (lookupL definition_lines definition).getD ""
    { rank := rank, local_score := local_score, file_rank := file_rank,
      definition := definition, definition_line := definition_line,
      references := references })

/-- Embedding of group_edges_by_ecosystem from src/analysis.rs: nested
entry().or_default() pushes, modelled over association lists. -/
def group_edges_by_ecosystem {κ : Type} [DecidableEq κ]
    (edges : List (ReferenceEdge κ)) :
    List (Ecosystem × List (Loc κ × List (Loc κ))) :=
  edges.foldl
    (fun m edge =>
      updateAssoc edge.ecosystem
        (fun g => updateAssoc edge.definition (fun us => us ++ [edge.usage]) [] g)
        [] m)
    []

/-- The row-producing tail of cruxlines_from_inputs / cruxlines_from_paths:
group edges by ecosystem; per ecosystem rank files (PageRank on the file
graph — an external algorithm, abstracted as the `rank_files` argument),
count names over the grouped keys, build rows; concatenate and sort by
rank descending with the location tie-break. -/
def rowsFromScan {κ : Type} [DecidableEq κ] (kcmp : κ → κ → Ordering)
    (rank_files : List (Loc κ × List (Loc κ)) → List (κ × F))
    (edges : List (ReferenceEdge κ)) (frecency : List (κ × F))
    (definition_lines : List (Loc κ × String)) : List (OutputRow κ) :=
  let grouped_by_ecosystem := group_edges_by_ecosystem edges
  let output_rows :=
    (grouped_by_ecosystem.map (fun e =>
      let grouped := e.2
      let file_ranks := rank_files grouped
      let name_counts := mkNameCounts (grouped.map Prod.fst)
      build_rows kcmp grouped file_ranks frecency name_counts definition_lines)).flatten
  sortByCmp (cmpRows kcmp) output_rows

/-! ## Embedding of the language registry (src/languages/mod.rs) -/

/-- Embedding of Language from src/languages/mod.rs. -/
inductive Language where
  | c | cpp | csharp | go | java | kotlin | php | python
  | javascript | typescript | typescriptReact | rust
deriving DecidableEq, Repr

def c_EXTENSIONS : List String := ["c", "h"]
def cpp_EXTENSIONS : List String := ["cpp", "cc", "cxx", "hpp", "hh", "hxx"]
def csharp_EXTENSIONS : List String := ["cs"]
def go_EXTENSIONS : List String := ["go"]
def java_EXTENSIONS : List String := ["java"]
def kotlin_EXTENSIONS : List String := ["kt", "kts"]
def php_EXTENSIONS : List String := ["php"]
def python_EXTENSIONS : List String := ["py"]
def javascript_EXTENSIONS : List String := ["js", "jsx"]
def TYPESCRIPT_EXTENSIONS : List String := ["ts"]
def TSX_EXTENSIONS : List String := ["tsx"]
def rust_EXTENSIONS : List String := ["rs"]

/-- Split a character list at every occurrence of one separator character
(kernel-reducible model of str::split with a char pattern). -/
def splitOnChar (sep : Char) : List Char → List (List Char)
  | [] => [[]]
  | c :: rest =>
      if c = sep then [] :: splitOnChar sep rest
      else
        match splitOnChar sep rest with
        | [] => [[c]]
        | l :: ls => (c :: l) :: ls

/-- Split a character list at every occurrence of the two-character
separator used by C++ qualified names. -/
def splitOnColonColon : List Char → List (List Char)
  | [] => [[]]
  | [c] => [[c]]
  | c₁ :: c₂ :: rest =>
      if c₁ = ':' ∧ c₂ = ':' then [] :: splitOnColonColon rest
      else
        match splitOnColonColon (c₂ :: rest) with
        | [] => [[c₁]]
        | l :: ls => (c₁ :: l) :: ls

/-- Drop one trailing carriage return (str::strip_suffix of a CR). -/
def stripCr (l : List Char) : List Char :=
  match l.reverse with
  | '\r' :: rest => rest.reverse
  | _ => l

/-- Right trim, the model of str::trim_end (ASCII whitespace). -/
def modelTrimRight (s : String) : String :=
  ⟨(s.data.reverse.dropWhile Char.isWhitespace).reverse⟩

/-- Both-ends trim, the model of str::trim (ASCII whitespace); this is the
reading of the word "trimmed" in the specification. -/
def modelTrim (s : String) : String :=
  ⟨((s.data.dropWhile Char.isWhitespace).reverse.dropWhile
      Char.isWhitespace).reverse⟩

/-- Model of Rust Path::extension over slash-separated path strings: the
part of the final component after its last dot; no dot, or a leading dot
as the only dot (hidden files), yields none. -/
def extensionOf (path : String) : Option String :=
  let fname := (splitOnChar '/' path.data).getLastD []
  match splitOnChar '.' fname with
  | [] => none
  | [_] => none
  | first :: rest =>
      if first = [] ∧ rest.length = 1 then none
      else some ⟨rest.getLastD []⟩

/-- Embedding of language_for_path from src/languages/mod.rs: a first-match
if-chain over the per-language extension lists. -/
def language_for_path (path : String) : Option Language :=
  match extensionOf path with
  | none => none
  | some ext =>
      if ext ∈ c_EXTENSIONS then some .c
      else if ext ∈ cpp_EXTENSIONS then some .cpp
      else if ext ∈ csharp_EXTENSIONS then some .csharp
      else if ext ∈ go_EXTENSIONS then some .go
      else if ext ∈ java_EXTENSIONS then some .java
      else if ext ∈ kotlin_EXTENSIONS then some .kotlin
      else if ext ∈ php_EXTENSIONS then some .php
      else if ext ∈ python_EXTENSIONS then some .python
      else if ext ∈ javascript_EXTENSIONS then some .javascript
      else if ext ∈ TYPESCRIPT_EXTENSIONS then some .typescript
      else if ext ∈ TSX_EXTENSIONS then some .typescriptReact
      else if ext ∈ rust_EXTENSIONS then some .rust
      else none

/-- Embedding of ecosystem_for_language from src/languages/mod.rs. -/
def ecosystem_for_language : Language → Ecosystem
  | .c | .cpp => .c
  | .csharp => .dotnet
  | .go => .go
  | .java | .kotlin => .java
  | .php => .php
  | .python => .python
  | .javascript | .typescript | .typescriptReact => .javascript
  | .rust => .rust

/-- Embedding of ecosystem_for_path from src/lib.rs. -/
def ecosystem_for_path (path : String) : Option Ecosystem :=
  (language_for_path path).map ecosystem_for_language

/-! ## Embedding of src/find_references.rs -/

/-- A definition or reference occurrence as the per-language extractor
emits it, before the file path is attached by location_from_node. -/
structure RawLoc where
  line : Nat
  column : Nat
  name : String
deriving DecidableEq, Repr

/-- Output of parsing plus per-language extraction for one file. The
concrete tree-sitter grammars are out-of-core collaborators; the scanner
is proved for every extractor. `none` models parse failure. -/
structure ParseOut where
  defs : List RawLoc
  refs : List RawLoc
deriving DecidableEq, Repr

/-- location_from_node: every emitted Location carries the scanned file
path (each language module passes the `path` argument through unchanged). -/
def attachPath (path : String) (r : RawLoc) : Loc String :=
  { path := path, line := r.line, column := r.column, name := r.name }

/-- Rust str::lines: split on newline; a newline-terminated piece loses a
trailing carriage return; a final empty piece (from a terminating newline)
is dropped. -/
def rustLines (s : String) : List String :=
  match s.data with
  | [] => []
  | _ :: _ =>
      let parts := splitOnChar '\n' s.data
      let body := parts.dropLast.map (fun cs => (⟨stripCr cs⟩ : String))
      match parts.getLast? with
      | some [] => body
      | some lastPart => body ++ [⟨lastPart⟩]
      | none => body

/-- Embedding of record_definition_line from src/find_references.rs:
first occurrence wins; the text is the 1-based source line, right-trimmed,
or the empty string when the line index is out of range. -/
def record_definition_line (location : Loc String) (source : String)
    (lines : List (Loc String × String)) : List (Loc String × String) :=
  if (lookupL lines location).isSome then lines
  else
    lines ++ [(location, modelTrimRight ((rustLines source).getD (location.line - 1) ""))]

/-- Embedding of record_definition from src/find_references.rs: push the
location onto the entry of its name unless a location with the same
(path, line, column) is already there; always record the position. -/
def record_definition (location : Loc String)
    (definitions : List (String × List (Loc String)))
    (definition_positions : List (String × Nat × Nat)) :
    List (String × List (Loc String)) × List (String × Nat × Nat) :=
  let definitions' := updateAssoc location.name
    (fun entry =>
      if entry.any (fun item =>
          decide (item.path = location.path ∧ item.line = location.line ∧
            item.column = location.column))
      then entry else entry ++ [location])
    [] definitions
  let pos := (location.path, location.line, location.column)
  let definition_positions' :=
    if pos ∈ definition_positions then definition_positions
    else definition_positions ++ [pos]
  (definitions', definition_positions')

/-- Embedding of make_edges from src/find_references.rs: a reference at a
recorded definition position yields nothing; otherwise one edge per entry
stored under the name of the reference. -/
def make_edges (location : Loc String) (ecosystem : Ecosystem)
    (definitions : List (String × List (Loc String)))
    (definition_positions : List (String × Nat × Nat)) :
    List (ReferenceEdge String) :=
  if (location.path, location.line, location.column) ∈ definition_positions then []
  else
    match lookupL definitions location.name with
    | some defs =>
        defs.map (fun d =>
          { definition := d, usage := location, ecosystem := ecosystem })
    | none => []

/-- Embedding of FileResult from src/find_references.rs. -/
structure FileResult where
  ecosystem : Ecosystem
  definitions : List (Loc String)
  references : List (Loc String)
  definition_lines : List (Loc String × String)
deriving DecidableEq, Repr

/-- Embedding of collect_definitions from src/find_references.rs: each
emitted definition is recorded in order, its source line captured first. -/
def collect_definitions (path : String) (source : String) (raw : List RawLoc) :
    List (Loc String) × List (Loc String × String) :=
  raw.foldl
    (fun acc r =>
      let loc := attachPath path r
      (acc.1 ++ [loc], record_definition_line loc source acc.2))
    ([], [])

/-- Embedding of process_file from src/find_references.rs: resolve the
language from the path (skip when unknown), parse and extract (skip on
parse failure), attach the file path to every emitted occurrence, tag
with the ecosystem of the language. -/
def process_file (extract : Language → String → Option ParseOut)
    (path : String) (source : String) : Option FileResult :=
  match language_for_path path with
  | none => none
  | some language =>
      match extract language source with
      | none => none
      | some out =>
          some { ecosystem := ecosystem_for_language language,
                 definitions := (collect_definitions path source out.defs).1,
                 references := out.refs.map (attachPath path),
                 definition_lines := (collect_definitions path source out.defs).2 }

/-- Embedding of EcosystemSymbols from src/find_references.rs. -/
structure EcosystemSymbols where
  definitions : List (String × List (Loc String))
  definition_positions : List (String × Nat × Nat)
  references : List (Loc String)
  definition_lines : List (Loc String × String)
deriving DecidableEq, Repr

def emptySymbols : EcosystemSymbols :=
  { definitions := [], definition_positions := [], references := [],
    definition_lines := [] }

/-- HashMap::extend on the definition-lines map: later entries overwrite. -/
def extendLines (m : List (Loc String × String))
    (adds : List (Loc String × String)) : List (Loc String × String) :=
  adds.foldl (fun acc e => updateAssoc e.1 (fun _ => e.2) "" acc) m

/-- One step of the merge phase of find_references: fold the
definitions through record_definition, append its references, extend its
definition lines. -/
def mergeFileResult (tab : EcosystemSymbols) (result : FileResult) :
    EcosystemSymbols :=
  let folded := result.definitions.foldl
    (fun acc loc => record_definition loc acc.1 acc.2)
    (tab.definitions, tab.definition_positions)
  { definitions := folded.1, definition_positions := folded.2,
    references := tab.references ++ result.references,
    definition_lines := extendLines tab.definition_lines result.definition_lines }

/-- The merge phase of find_references: partition per-file results by
ecosystem and merge into one symbol table per ecosystem. -/
def symbols_by_ecosystem (results : List FileResult) :
    List (Ecosystem × EcosystemSymbols) :=
  results.foldl
    (fun m result =>
      updateAssoc result.ecosystem (fun tab => mergeFileResult tab result)
        emptySymbols m)
    []

/-- Embedding of ReferenceScan from src/find_references.rs. -/
structure ReferenceScan where
  edges : List (ReferenceEdge String)
  definition_lines : List (Loc String × String)
deriving DecidableEq, Repr

/-- Embedding of CruxlinesError from src/io.rs (the io::Error payload is
modelled as its message). -/
inductive CruxlinesError where
  | readFile (path : String) (msg : String)
deriving DecidableEq, Repr

/-- Edge synthesis and line collection of find_references: per ecosystem,
flat-map make_edges over the references; merge definition lines with
first-occurrence-wins across ecosystems. -/
def scanOfSymbols (tabs : List (Ecosystem × EcosystemSymbols)) : ReferenceScan :=
  { edges :=
      tabs.flatMap (fun e =>
        e.2.references.flatMap (fun r =>
          make_edges r e.1 e.2.definitions e.2.definition_positions)),
    definition_lines :=
      tabs.foldl
        (fun acc e =>
          e.2.definition_lines.foldl
            (fun acc' kv =>
              if (lookupL acc' kv.1).isSome then acc' else acc' ++ [kv])
            acc)
        [] }

/-- Embedding of find_references from src/find_references.rs. Note the
first step: Err items of the input iterator are DISCARDED by
filter_map(item.ok()); the function never returns an error. -/
def find_references (extract : Language → String → Option ParseOut)
    (files : List (Except CruxlinesError (String × String))) :
    Except CruxlinesError ReferenceScan :=
  let files' := files.filterMap (fun item => item.toOption)
  let file_results := files'.filterMap (fun e => process_file extract e.1 e.2)
  .ok (scanOfSymbols (symbols_by_ecosystem file_results))

/-! ## Embedding of the path-reading entry (src/analysis.rs) -/

/-- Outcome of std::fs::read followed by String::from_utf8 for one path. -/
inductive ReadOutcome where
  | failure (msg : String)
  | notUtf8
  | ok (contents : String)
deriving DecidableEq, Repr

/-- Embedding of read_input from src/analysis.rs: a failed read becomes
Some(Err(ReadFile)), non-UTF-8 content is dropped, otherwise the contents
are passed through. -/
def read_input (fs : String → ReadOutcome) (path : String) :
    Option (Except CruxlinesError (String × String)) :=
  match fs path with
  | .failure msg => some (.error (.readFile path msg))
  | .notUtf8 => none
  | .ok contents => some (.ok (path, contents))

/-- Embedding of cruxlines_from_paths from src/analysis.rs (frecency runs
on a background worker and is abstracted as an input mapping; rank_files
wraps the external PageRank and is abstracted as an argument): read the
inputs, scan, group, rank, build and sort rows. -/
def cruxlines_from_paths (extract : Language → String → Option ParseOut)
    (rank_files : List (Loc String × List (Loc String)) → List (String × F))
    (kcmp : String → String → Ordering) (fs : String → ReadOutcome)
    (frecency : List (String × F)) (paths : List String) :
    Except CruxlinesError (List (OutputRow String)) :=
  let inputs := paths.filterMap (read_input fs)
  match find_references extract inputs with
  | .error e => .error e
  | .ok scan =>
      .ok (rowsFromScan kcmp rank_files scan.edges frecency scan.definition_lines)

/-! ## Embedding of src/cache.rs -/

/-- Embedding of SerializedLocation from src/find_references.rs: path and
name stored as plain strings. -/
structure SerializedLocation where
  path : String
  line : Nat
  column : Nat
  name : String
deriving DecidableEq, Repr

/-- The cache format version constant of src/cache.rs. -/
def CACHE_VERSION : Nat := 2

/-- Embedding of CachedFile from src/cache.rs. -/
structure CachedFile where
  version : Nat
  mtime_secs : Nat
  mtime_nanos : Nat
  size : Nat
  ecosystem : Ecosystem
  definitions : List SerializedLocation
  references : List SerializedLocation
  definition_lines : List (SerializedLocation × String)
deriving DecidableEq, Repr

/-- Current metadata of the source file: system_time_to_parts output and
byte length. -/
structure FileMeta where
  mtime_secs : Nat
  mtime_nanos : Nat
  size : Nat
deriving DecidableEq, Repr

/-- Embedding of CachedFileResult from src/cache.rs (locations converted
back through the interner; in the string model the conversion is the
identity on the stored fields). -/
structure CachedFileResult where
  ecosystem : Ecosystem
  definitions : List (Loc String)
  references : List (Loc String)
  definition_lines : List (Loc String × String)
deriving DecidableEq, Repr

/-- From SerializedLocation back to Location (intern path, intern name). -/
def locOfSerialized (s : SerializedLocation) : Loc String :=
  { path := s.path, line := s.line, column := s.column, name := s.name }

/-- Embedding of FileCache::get from src/cache.rs. The filesystem are the
two arguments: `record` is the outcome of fs::read then
bincode::deserialize of the cache file (outer none: unreadable; inner
none: corrupt), `meta` the outcome of fs::metadata plus modified() of the
source file. A hit converts the stored lists back to locations. -/
def cacheGet (record : Option (Option CachedFile)) (meta : Option FileMeta) :
    Option CachedFileResult := do
  let bytes ← record
  let cached ← bytes
  if cached.version ≠ CACHE_VERSION then none
  else do
    let m ← meta
    if cached.mtime_secs ≠ m.mtime_secs ∨ cached.mtime_nanos ≠ m.mtime_nanos ∨
        cached.size ≠ m.size then none
    else
      some { ecosystem := cached.ecosystem,
             definitions := cached.definitions.map locOfSerialized,
             references := cached.references.map locOfSerialized,
             definition_lines :=
               cached.definition_lines.map (fun kv => (locOfSerialized kv.1, kv.2)) }

/-! ## Embedding of src/intern.rs (lasso ThreadedRodeo)

The interner state is the list of distinct strings in interning order; a
Spur handle is an index into it. -/

/-- Interner state: strings in first-interning order, pairwise distinct. -/
abbrev InternerState := List String

/-- First index of a string in the interner state (the lookup half of
get_or_intern). -/
def findIndexOf (s : String) : List String → Option Nat
  | [] => none
  | t :: rest => if t = s then some 0 else (findIndexOf s rest).map (· + 1)

/-- Embedding of intern (get_or_intern): return the handle of an already
present string, else append and return the fresh handle. -/
def intern (st : InternerState) (s : String) : Nat × InternerState :=
  match findIndexOf s st with
  | some i => (i, st)
  | none => (st.length, st ++ [s])

/-- Embedding of resolve: the string a handle was assigned to. -/
def resolve (st : InternerState) (h : Nat) : String :=
  st.getD h ""

/-- Location with interned handles, the in-memory Location of
src/find_references.rs (path and name are Spur handles). -/
abbrev HLoc := Loc Nat

/-- SerializedLocation::from(&Location): resolve both handles. -/
def serializeLoc (st : InternerState) (l : HLoc) : SerializedLocation :=
  { path := resolve st l.path, line := l.line, column := l.column,
    name := resolve st l.name }

/-- Location::from(SerializedLocation): intern the path, then the name. -/
def deserializeLoc (st : InternerState) (s : SerializedLocation) :
    HLoc × InternerState :=
  let p := intern st s.path
  let n := intern p.2 s.name
  ({ path := p.1, line := s.line, column := s.column, name := n.1 }, n.2)

/-! ## File graph (§4.6 of the spec)

Modelled from the spec: `build_file_graph` (called by rank_files in
src/analysis.rs) is not part of the source snapshot — src/graph.rs holds
an older Location-level builder that the current analysis.rs no longer
calls.  §4.6: for each grouped entry, for each usage whose path differs
from the definition path, add the edge usage-path → definition-path;
duplicate edges are suppressed; same-file references add no edge. -/

/-- Modelled from the spec: build_file_graph (§4.6), as the deduplicated
list of directed edges usage-path → definition-path over file paths. -/
def build_file_graph {κ : Type} [DecidableEq κ]
    (grouped : List (Loc κ × List (Loc κ))) : List (κ × κ) :=
  grouped.foldl
    (fun g e =>
      e.2.foldl
        (fun g' usage =>
          if usage.path = e.1.path then g'
          else if (usage.path, e.1.path) ∈ g' then g'
          else g' ++ [(usage.path, e.1.path)])
        g)
    []

/-! ## Model of tree-sitter trees and the C++ extractor
(src/languages/cpp/mod.rs)

A concrete syntax tree is abstracted as nodes carrying their kind, their
full source text, their 0-based start position, and their children; the
C++ grammar itself is an out-of-core collaborator. -/

/-- A parsed tree node: kind, utf8 text, 0-based start row and column,
children in order. -/
inductive Node where
  | mk (kind : String) (text : String) (row : Nat) (col : Nat)
      (children : List Node)

mutual
def nodeDecEq : (a b : Node) → Decidable (a = b)
  | .mk k₁ t₁ r₁ c₁ ch₁, .mk k₂ t₂ r₂ c₂ ch₂ =>
    if hk : k₁ = k₂ then
      if ht : t₁ = t₂ then
        if hr : r₁ = r₂ then
          if hc : c₁ = c₂ then
            match nodeListDecEq ch₁ ch₂ with
            | isTrue hch => isTrue (by rw [hk, ht, hr, hc, hch])
            | isFalse hch => isFalse (by intro h; injection h; contradiction)
          else isFalse (by intro h; injection h; contradiction)
        else isFalse (by intro h; injection h; contradiction)
      else isFalse (by intro h; injection h; contradiction)
    else isFalse (by intro h; injection h; contradiction)

def nodeListDecEq : (a b : List Node) → Decidable (a = b)
  | [], [] => isTrue rfl
  | [], _ :: _ => isFalse (by intro h; cases h)
  | _ :: _, [] => isFalse (by intro h; cases h)
  | a :: as, b :: bs =>
    match nodeDecEq a b, nodeListDecEq as bs with
    | isTrue h₁, isTrue h₂ => isTrue (by rw [h₁, h₂])
    | isFalse h₁, _ => isFalse (by intro h; injection h; contradiction)
    | _, isFalse h₂ => isFalse (by intro h; injection h; contradiction)
end

instance : DecidableEq Node := nodeDecEq

def Node.kind : Node → String
  | .mk k _ _ _ _ => k

def Node.text : Node → String
  | .mk _ t _ _ _ => t

def Node.row : Node → Nat
  | .mk _ _ r _ _ => r

def Node.col : Node → Nat
  | .mk _ _ _ c _ => c

def Node.children : Node → List Node
  | .mk _ _ _ _ ch => ch

mutual
/-- The visit order of walk_tree from src/find_references.rs: an explicit
stack, children pushed in order and popped from the top, so the root is
visited first and the subtrees in reverse child order. -/
def walkVisits : Node → List Node
  | .mk k t r c ch => .mk k t r c ch :: walkVisitsRev ch

def walkVisitsRev : List Node → List Node
  | [] => []
  | n :: rest => walkVisitsRev rest ++ walkVisits n
end

/-- Embedding of location_from_node from src/find_references.rs: the name
is the full utf8 text of the node, line and column are the 0-based start
position plus one. -/
def location_from_node (path : String) (node : Node) : Loc String :=
  { path := path, line := node.row + 1, column := node.col + 1,
    name := node.text }

/-- REFERENCE_KINDS of src/languages/cpp/mod.rs. -/
def cppREFERENCE_KINDS : List String :=
  ["identifier", "type_identifier", "field_identifier", "qualified_identifier"]

/-- Embedding of emit_references from src/languages/cpp/mod.rs: walk the
tree and emit location_from_node for every node whose kind is in
REFERENCE_KINDS. -/
def cppEmitReferences (path : String) (tree : Node) : List (Loc String) :=
  (walkVisits tree).filterMap (fun node =>
    if cppREFERENCE_KINDS.contains node.kind then
      some (location_from_node path node)
    else none)

/-- The rightmost name component of a qualified C++ name (the reading the
spec gives for qualified_identifier references). -/
def rightmostComponent (s : String) : String :=
  ⟨(splitOnColonColon s.data).getLastD s.data⟩

/-! ## General helper lemmas about the association-list model -/

theorem lookupL_mem {κ β : Type} [DecidableEq κ] {m : List (κ × β)} {k : κ} {v : β}
    (h : lookupL m k = some v) : (k, v) ∈ m := by
  induction m with
  | nil => simp [lookupL] at h
  | cons e rest ih =>
      obtain ⟨k₀, v₀⟩ := e
      by_cases hk : k₀ = k
      · subst hk
        simp [lookupL] at h
        simp [h]
      · simp [lookupL, hk] at h
        exact List.mem_cons_of_mem _ (ih h)

theorem lookupL_append_of_none {κ β : Type} [DecidableEq κ]
    {m₁ : List (κ × β)} (m₂ : List (κ × β)) {k : κ}
    (h : lookupL m₁ k = none) : lookupL (m₁ ++ m₂) k = lookupL m₂ k := by
  induction m₁ with
  | nil => simp
  | cons e rest ih =>
      obtain ⟨k₀, v₀⟩ := e
      by_cases hk : k₀ = k
      · simp [lookupL, hk] at h
      · simp [lookupL, hk] at h ⊢
        exact ih h

/-! ## Claim C5: cache hit condition (src/cache.rs FileCache::get) -/

/-- Claim C5: FileCache::get returns a hit exactly when the stored record
is readable and deserializable, its version equals the current format
version, and its stored mtime seconds, mtime nanoseconds and byte length
all equal the current file metadata; every other case is a miss. -/
theorem cache_get_hit_iff (record : Option (Option CachedFile))
    (meta : Option FileMeta) :
    (cacheGet record meta).isSome ↔
      ∃ cached m, record = some (some cached) ∧ meta = some m ∧
        cached.version = CACHE_VERSION ∧ cached.mtime_secs = m.mtime_secs ∧
        cached.mtime_nanos = m.mtime_nanos ∧ cached.size = m.size := by
  rcases record with _ | bytes
  · simp [cacheGet]
  · rcases bytes with _ | cached
    · simp [cacheGet]
    · rcases meta with _ | m
      · by_cases hv : cached.version = CACHE_VERSION <;>
          simp [cacheGet, hv]
      · by_cases hv : cached.version = CACHE_VERSION
        · by_cases hm : cached.mtime_secs ≠ m.mtime_secs ∨
              cached.mtime_nanos ≠ m.mtime_nanos ∨ cached.size ≠ m.size
          · simp only [cacheGet, Option.bind_some, hv]
            simp [hm]
            intro h₁ h₂ h₃
            rcases hm with h | h | h <;> simp_all
          · simp only [cacheGet, Option.bind_some, hv]
            push_neg at hm
            simp [hm.1, hm.2.1, hm.2.2, hv]
        · simp [cacheGet, hv]

/-! ## Claim C8: recorded definition line (record_definition_line) -/

/-- Claim C8 counterexample input: a definition line with leading
whitespace (for example a declaration inside a C++ namespace block). -/
def c8Loc : Loc String :=
  { path := "ns.cpp", line := 2, column := 5, name := "x" }

/-- Claim C8 as stated is false: with source line 2 reading "    int x;",
the recorded text keeps the leading spaces while the trimmed text of the
line does not. -/
theorem record_line_keeps_leading_whitespace :
    lookupL (record_definition_line c8Loc "namespace n\n    int x;\n" []) c8Loc
        = some "    int x;" ∧
      modelTrim "    int x;" = "int x;" ∧
      ("    int x;" : String) ≠ "int x;" := by
  refine ⟨by decide, by decide, by decide⟩

/-- Claim C8 amended: the recorded text for a newly recorded definition is
the right-trimmed (trailing whitespace removed, leading whitespace kept)
source line at the 1-based line index, and the blank string when the index
is out of range for the file. -/
theorem record_definition_line_spec (location : Loc String) (source : String)
    (lines : List (Loc String × String)) (h : lookupL lines location = none) :
    lookupL (record_definition_line location source lines) location =
        some (modelTrimRight ((rustLines source).getD (location.line - 1) "")) ∧
      ((rustLines source).length < location.line →
        lookupL (record_definition_line location source lines) location = some "") := by
  have hrec : lookupL (record_definition_line location source lines) location =
      some (modelTrimRight ((rustLines source).getD (location.line - 1) "")) := by
    unfold record_definition_line
    rw [if_neg (by simp [h])]
    rw [lookupL_append_of_none _ h]
    simp [lookupL]
  refine ⟨hrec, fun hout => ?_⟩
  have hoob : (rustLines source).length ≤ location.line - 1 := by omega
  rw [hrec, List.getD_eq_default _ _ hoob]
  rfl

/-- Witness for the amended claim C8: concrete in-range and out-of-range
lines. -/
theorem record_definition_line_spec_witness :
    lookupL (record_definition_line c8Loc "namespace n\n    int x;  \n" []) c8Loc
        = some "    int x;" ∧
      lookupL (record_definition_line
          { path := "a.py", line := 9, column := 1, name := "y" } "z = 1\n" [])
          { path := "a.py", line := 9, column := 1, name := "y" } = some "" := by
  constructor
  · exact (record_definition_line_spec c8Loc "namespace n\n    int x;  \n" []
      (by decide)).1.trans (by decide)
  · exact (record_definition_line_spec
      { path := "a.py", line := 9, column := 1, name := "y" } "z = 1\n" []
      (by decide)).2 (by decide)

/-! ## Claim C9: C++ qualified_identifier references -/

/-- Concrete tree for the expression A::b as tree-sitter-cpp shapes it:
a qualified_identifier node with a namespace scope child and an identifier
name child. -/
def c9Tree : Node :=
  .mk "qualified_identifier" "A::b" 0 4
    [.mk "namespace_identifier" "A" 0 4 [],
     .mk "::" "::" 0 5 [],
     .mk "identifier" "b" 0 7 []]

/-- The qualified_identifier node of the counterexample tree. -/
def c9Qual : Node := c9Tree

theorem self_mem_walkVisits (n : Node) : n ∈ walkVisits n := by
  cases n with
  | mk k t r c ch => simp [walkVisits]

/-- Claim C9 as stated is false: the qualified_identifier occurrence A::b
is emitted as a reference named "A::b" (the node full text), not as its
rightmost component "b"; the rightmost component reaches the reference
list only through the separate child identifier node. -/
theorem cpp_qualified_reference_full_text :
    c9Qual ∈ walkVisits c9Tree ∧
      c9Qual.kind = "qualified_identifier" ∧
      location_from_node "main.cpp" c9Qual ∈ cppEmitReferences "main.cpp" c9Tree ∧
      (location_from_node "main.cpp" c9Qual).name = "A::b" ∧
      rightmostComponent c9Qual.text = "b" ∧
      (location_from_node "main.cpp" c9Qual).name ≠ rightmostComponent c9Qual.text ∧
      (cppEmitReferences "main.cpp" c9Tree).map (fun l => l.name) = ["A::b", "b"] := by
  refine ⟨self_mem_walkVisits c9Tree, rfl, by decide, rfl, by decide, by decide, by decide⟩

/-- Claim C9 amended: every visited node of kind qualified_identifier is
emitted by the C++ emit_references with the node FULL source text as the
reference name (location_from_node reads the whole node text); no
rightmost-component extraction happens on the reference side (that logic
exists only in the definition declarator handling). -/
theorem cpp_qualified_reference_emits_full_text (path : String) (tree node : Node)
    (hmem : node ∈ walkVisits tree)
    (hkind : node.kind = "qualified_identifier") :
    location_from_node path node ∈ cppEmitReferences path tree ∧
      (location_from_node path node).name = node.text := by
  constructor
  · refine List.mem_filterMap.mpr ⟨node, hmem, ?_⟩
    rw [hkind]
    rfl
  · rfl

/-- Witness for the amended claim C9 at the concrete tree. -/
theorem cpp_qualified_reference_emits_full_text_witness :
    location_from_node "main.cpp" c9Qual ∈ cppEmitReferences "main.cpp" c9Tree ∧
      (location_from_node "main.cpp" c9Qual).name = c9Qual.text :=
  cpp_qualified_reference_emits_full_text "main.cpp" c9Tree c9Qual
    (self_mem_walkVisits c9Tree) (by rfl)

/-! ## Claim C6: read failures are not surfaced (code bug) -/

/-- A filesystem on which every read fails. -/
def failingFs : String → ReadOutcome := fun _ => .failure "permission denied"

/-- Claim C6 evaluation: with a single input file whose read fails, the
pipeline returns Ok with an empty row list for every extractor, ranker,
comparator and frecency mapping — the ReadFile error built by read_input
is discarded by find_references (filter_map item.ok()), so the run is NOT
aborted as the claim requires. -/
theorem read_failure_not_surfaced
    (extract : Language → String → Option ParseOut)
    (rank_files : List (Loc String × List (Loc String)) → List (String × F))
    (kcmp : String → String → Ordering) (frecency : List (String × F)) :
    cruxlines_from_paths extract rank_files kcmp failingFs frecency ["bad.py"]
      = .ok [] := rfl

/-! ## Claim C7: the file graph is simple with no self-loops (§4.6) -/

section FileGraph

variable {κ : Type} [DecidableEq κ]

/-- Inner fold of one grouped entry of build_file_graph. -/
def fileGraphInner (d : Loc κ) (us : List (Loc κ)) (g₀ : List (κ × κ)) :
    List (κ × κ) :=
  us.foldl
    (fun g' usage =>
      if usage.path = d.path then g'
      else if (usage.path, d.path) ∈ g' then g'
      else g' ++ [(usage.path, d.path)])
    g₀

theorem build_file_graph_eq_inner (grouped : List (Loc κ × List (Loc κ))) :
    build_file_graph grouped =
      grouped.foldl (fun g e => fileGraphInner e.1 e.2 g) [] := rfl

theorem mem_fileGraphInner (d : Loc κ) (us : List (Loc κ)) (g₀ : List (κ × κ))
    (x : κ × κ) :
    x ∈ fileGraphInner d us g₀ ↔
      x ∈ g₀ ∨ ∃ u ∈ us, u.path = x.1 ∧ d.path = x.2 ∧ x.1 ≠ x.2 := by
  obtain ⟨x₁, x₂⟩ := x
  induction us generalizing g₀ with
  | nil => simp [fileGraphInner]
  | cons u rest ih =>
      have hstep : fileGraphInner d (u :: rest) g₀ =
          fileGraphInner d rest
            (if u.path = d.path then g₀
             else if (u.path, d.path) ∈ g₀ then g₀
             else g₀ ++ [(u.path, d.path)]) := rfl
      have hif : ((x₁, x₂) ∈
          (if u.path = d.path then g₀
           else if (u.path, d.path) ∈ g₀ then g₀
           else g₀ ++ [(u.path, d.path)])) ↔
            ((x₁, x₂) ∈ g₀ ∨ (u.path = x₁ ∧ d.path = x₂ ∧ x₁ ≠ x₂)) := by
        by_cases h₁ : u.path = d.path
        · rw [if_pos h₁]
          constructor
          · exact Or.inl
          · rintro (hg | ⟨hp, hd, hne⟩)
            · exact hg
            · exact absurd (by rw [← hp, h₁]; exact hd) hne
        · rw [if_neg h₁]
          by_cases h₂ : (u.path, d.path) ∈ g₀
          · rw [if_pos h₂]
            constructor
            · exact Or.inl
            · rintro (hg | ⟨hp, hd, hne⟩)
              · exact hg
              · have hx : ((x₁ : κ), x₂) = (u.path, d.path) := by rw [hp, hd]
                rw [hx]; exact h₂
          · rw [if_neg h₂]
            constructor
            · intro hg
              rcases List.mem_append.mp hg with hg' | hnew
              · exact Or.inl hg'
              · have hx : ((x₁ : κ), x₂) = (u.path, d.path) := by simpa using hnew
                have h1 : u.path = x₁ := (congrArg Prod.fst hx).symm
                have h2 : d.path = x₂ := (congrArg Prod.snd hx).symm
                exact Or.inr ⟨h1, h2, by rw [← h1, ← h2]; exact h₁⟩
            · rintro (hg | ⟨hp, hd, hne⟩)
              · exact List.mem_append_left _ hg
              · refine List.mem_append_right _ ?_
                have hx : ((x₁ : κ), x₂) = (u.path, d.path) := by rw [hp, hd]
                simp [hx]
      have hcons : (∃ u' ∈ u :: rest, u'.path = x₁ ∧ d.path = x₂ ∧ x₁ ≠ x₂) ↔
          ((u.path = x₁ ∧ d.path = x₂ ∧ x₁ ≠ x₂) ∨
            ∃ u' ∈ rest, u'.path = x₁ ∧ d.path = x₂ ∧ x₁ ≠ x₂) := by
        constructor
        · rintro ⟨u', hu', hprop⟩
          rcases List.mem_cons.mp hu' with heq | hmem
          · exact Or.inl (heq ▸ hprop)
          · exact Or.inr ⟨u', hmem, hprop⟩
        · rintro (hprop | ⟨u', hmem, hprop⟩)
          · exact ⟨u, List.mem_cons_self _ _, hprop⟩
          · exact ⟨u', List.mem_cons_of_mem _ hmem, hprop⟩
      rw [hstep, ih, hif, hcons]
      tauto

theorem fileGraphInner_invariant (d : Loc κ) (us : List (Loc κ))
    (g₀ : List (κ × κ)) (hnd : g₀.Nodup) (hne : ∀ e ∈ g₀, e.1 ≠ e.2) :
    (fileGraphInner d us g₀).Nodup ∧ ∀ e ∈ fileGraphInner d us g₀, e.1 ≠ e.2 := by
  induction us generalizing g₀ with
  | nil => exact ⟨hnd, hne⟩
  | cons u rest ih =>
      have hstep : fileGraphInner d (u :: rest) g₀ =
          fileGraphInner d rest
            (if u.path = d.path then g₀
             else if (u.path, d.path) ∈ g₀ then g₀
             else g₀ ++ [(u.path, d.path)]) := rfl
      rw [hstep]
      by_cases h₁ : u.path = d.path
      · rw [if_pos h₁]; exact ih g₀ hnd hne
      · rw [if_neg h₁]
        by_cases h₂ : (u.path, d.path) ∈ g₀
        · rw [if_pos h₂]; exact ih g₀ hnd hne
        · rw [if_neg h₂]
          refine ih _ ?_ ?_
          · rw [List.nodup_append]
            refine ⟨hnd, by simp, ?_⟩
            intro y hy hy'
            rw [List.mem_singleton.mp hy'] at hy
            exact h₂ hy
          · intro e he
            rcases List.mem_append.mp he with he' | hnew
            · exact hne e he'
            · have : e = (u.path, d.path) := by simpa using hnew
              rw [this]; exact h₁

theorem mem_build_file_graph (grouped : List (Loc κ × List (Loc κ))) (x : κ × κ) :
    x ∈ build_file_graph grouped ↔
      ∃ e ∈ grouped, ∃ u ∈ e.2, u.path = x.1 ∧ e.1.path = x.2 ∧ x.1 ≠ x.2 := by
  rw [build_file_graph_eq_inner]
  suffices h : ∀ g₀ : List (κ × κ),
      x ∈ grouped.foldl (fun g e => fileGraphInner e.1 e.2 g) g₀ ↔
        x ∈ g₀ ∨ ∃ e ∈ grouped, ∃ u ∈ e.2, u.path = x.1 ∧ e.1.path = x.2 ∧ x.1 ≠ x.2 by
    rw [h []]; simp
  induction grouped with
  | nil => intro g₀; simp
  | cons e rest ih =>
      intro g₀
      rw [List.foldl_cons, ih, mem_fileGraphInner]
      constructor
      · rintro ((hg | ⟨u, hu, hprop⟩) | ⟨e', he', hprop⟩)
        · exact Or.inl hg
        · exact Or.inr ⟨e, List.mem_cons_self _ _, u, hu, hprop⟩
        · exact Or.inr ⟨e', List.mem_cons_of_mem _ he', hprop⟩
      · rintro (hg | ⟨e', he', u, hu, hprop⟩)
        · exact Or.inl (Or.inl hg)
        · rcases List.mem_cons.mp he' with heq | hmem
          · subst heq; exact Or.inl (Or.inr ⟨u, hu, hprop⟩)
          · exact Or.inr ⟨e', hmem, u, hu, hprop⟩

/-- Claim C7 (modelled from the spec, §4.6, because rank_files' callee
build_file_graph is absent from the source snapshot): for every grouped
mapping, the file graph has an edge usage-path → definition-path exactly
for the pairs with differing paths, holds no duplicate edge (simple
graph), and holds no self-loop. -/
theorem file_graph_simple_no_self_loops (grouped : List (Loc κ × List (Loc κ))) :
    (build_file_graph grouped).Nodup ∧
      (∀ e ∈ build_file_graph grouped, e.1 ≠ e.2) ∧
      (∀ a b : κ, (a, b) ∈ build_file_graph grouped ↔
        a ≠ b ∧ ∃ e ∈ grouped, ∃ u ∈ e.2, u.path = a ∧ e.1.path = b) := by
  refine ⟨?_, ?_, ?_⟩
  · rw [build_file_graph_eq_inner]
    suffices h : ∀ g₀ : List (κ × κ), g₀.Nodup → (∀ e ∈ g₀, e.1 ≠ e.2) →
        (grouped.foldl (fun g e => fileGraphInner e.1 e.2 g) g₀).Nodup ∧
          ∀ e ∈ grouped.foldl (fun g e => fileGraphInner e.1 e.2 g) g₀, e.1 ≠ e.2 by
      exact (h [] (by simp) (by simp)).1
    induction grouped with
    | nil => intro g₀ h₁ h₂; exact ⟨h₁, h₂⟩
    | cons e rest ih =>
        intro g₀ h₁ h₂
        rw [List.foldl_cons]
        have := fileGraphInner_invariant e.1 e.2 g₀ h₁ h₂
        exact ih _ this.1 this.2
  · rw [build_file_graph_eq_inner]
    suffices h : ∀ g₀ : List (κ × κ), g₀.Nodup → (∀ e ∈ g₀, e.1 ≠ e.2) →
        (grouped.foldl (fun g e => fileGraphInner e.1 e.2 g) g₀).Nodup ∧
          ∀ e ∈ grouped.foldl (fun g e => fileGraphInner e.1 e.2 g) g₀, e.1 ≠ e.2 by
      exact (h [] (by simp) (by simp)).2
    induction grouped with
    | nil => intro g₀ h₁ h₂; exact ⟨h₁, h₂⟩
    | cons e rest ih =>
        intro g₀ h₁ h₂
        rw [List.foldl_cons]
        have := fileGraphInner_invariant e.1 e.2 g₀ h₁ h₂
        exact ih _ this.1 this.2
  · intro a b
    rw [mem_build_file_graph]
    constructor
    · rintro ⟨e, he, u, hu, hp, hd, hne⟩
      exact ⟨hne, e, he, u, hu, hp, hd⟩
    · rintro ⟨hne, e, he, u, hu, hp, hd⟩
      exact ⟨e, he, u, hu, hp, hd, hne⟩

end FileGraph

/-- Witness for claim C7 at a concrete grouped mapping: a cross-file use
adds the edge, a same-file use adds nothing, and a repeated cross-file use
adds no duplicate. -/
theorem file_graph_simple_no_self_loops_witness :
    ("c.py", "a.py") ∈ build_file_graph
        [((⟨"a.py", 1, 5, "foo"⟩ : Loc String),
          [⟨"c.py", 3, 1, "foo"⟩, ⟨"a.py", 9, 1, "foo"⟩, ⟨"c.py", 4, 1, "foo"⟩])] ∧
      build_file_graph
        [((⟨"a.py", 1, 5, "foo"⟩ : Loc String),
          [⟨"c.py", 3, 1, "foo"⟩, ⟨"a.py", 9, 1, "foo"⟩, ⟨"c.py", 4, 1, "foo"⟩])]
        = [("c.py", "a.py")] := by
  constructor
  · exact (file_graph_simple_no_self_loops _).2.2 "c.py" "a.py" |>.mpr
      (by refine ⟨by decide, _, List.mem_singleton.mpr rfl, ⟨"c.py", 3, 1, "foo"⟩, ?_, rfl, rfl⟩
          simp)
  · decide

/-! ## Claim C10: serialize/deserialize round trip through the interner -/

theorem findIndexOf_getElem (st : InternerState) (hnd : st.Nodup)
    (i : Nat) (h : i < st.length) :
    findIndexOf st[i] st = some i := by
  induction st generalizing i with
  | nil => simp at h
  | cons t rest ih =>
      cases i with
      | zero => simp [findIndexOf]
      | succ j =>
          have hj : j < rest.length := by simpa using h
          have hne : t ≠ rest[j] := by
            intro heq
            exact (List.nodup_cons.mp hnd).1 (heq ▸ List.getElem_mem hj)
          have : (t :: rest)[j + 1] = rest[j] := by simp
          rw [this, findIndexOf, if_neg hne, ih (List.nodup_cons.mp hnd).2 j hj]
          rfl

theorem intern_resolve_of_valid (st : InternerState) (hnd : st.Nodup)
    (h : Nat) (hlt : h < st.length) :
    intern st (resolve st h) = (h, st) := by
  have hres : resolve st h = st[h] := by
    simp [resolve, List.getD_eq_getElem?_getD, List.getElem?_eq_getElem hlt]
  rw [hres, intern, findIndexOf_getElem st hnd h hlt]

/-- Claim C10: converting an in-memory Location to its serialized form and
back (the cache storage path) is the identity and leaves the interner
unchanged: resolve returns the original string and re-interning it returns
the original handle. -/
theorem serialized_location_roundtrip (st : InternerState) (hnd : st.Nodup)
    (l : HLoc) (hp : l.path < st.length) (hn : l.name < st.length) :
    deserializeLoc st (serializeLoc st l) = (l, st) := by
  obtain ⟨p, li, co, n⟩ := l
  simp only [serializeLoc, deserializeLoc]
  rw [intern_resolve_of_valid st hnd p hp]
  simp only []
  rw [intern_resolve_of_valid st hnd n hn]

/-- Witness for claim C10 at a concrete interner state and location. -/
theorem serialized_location_roundtrip_witness :
    deserializeLoc ["src/a.py", "foo"]
        (serializeLoc ["src/a.py", "foo"] ⟨0, 3, 7, 1⟩)
      = (⟨0, 3, 7, 1⟩, ["src/a.py", "foo"]) :=
  serialized_location_roundtrip ["src/a.py", "foo"] (by decide) ⟨0, 3, 7, 1⟩
    (by decide) (by decide)

/-! ## Claim C3: edge synthesis (record_definition / make_edges) -/

/-- The name entry in the definitions map (empty when absent). -/
def entryOf (defs : List (String × List (Loc String))) (n : String) :
    List (Loc String) :=
  (lookupL defs n).getD []

/-- Well-formedness of a symbol table reached through record_definition:
entries hold only locations of their own name, entries are duplicate-free,
and every stored definition position is recorded. -/
def GoodSyms (st : List (String × List (Loc String)) × List (String × Nat × Nat)) :
    Prop :=
  (∀ n, ∀ x ∈ entryOf st.1 n, x.name = n) ∧
    (∀ n, (entryOf st.1 n).Nodup) ∧
    (∀ n, ∀ x ∈ entryOf st.1 n, (x.path, x.line, x.column) ∈ st.2)

/-- Folding a list of emitted definitions through record_definition, as
the merge phase of find_references does within one ecosystem. -/
def foldDefinitions (locs : List (Loc String)) :
    List (String × List (Loc String)) × List (String × Nat × Nat) :=
  locs.foldl (fun acc loc => record_definition loc acc.1 acc.2) ([], [])

theorem record_definition_entry (loc : Loc String)
    (defs : List (String × List (Loc String)))
    (poss : List (String × Nat × Nat)) (n : String) :
    entryOf (record_definition loc defs poss).1 n =
      if n = loc.name then
        (if (entryOf defs loc.name).any (fun item =>
            decide (item.path = loc.path ∧ item.line = loc.line ∧
              item.column = loc.column))
         then entryOf defs loc.name else entryOf defs loc.name ++ [loc])
      else entryOf defs n := by
  have h1 : (record_definition loc defs poss).1 =
      updateAssoc loc.name
        (fun entry =>
          if entry.any (fun item =>
              decide (item.path = loc.path ∧ item.line = loc.line ∧
                item.column = loc.column))
          then entry else entry ++ [loc])
        [] defs := rfl
  unfold entryOf
  rw [h1, lookupL_updateAssoc]
  by_cases h : n = loc.name
  · rw [if_pos h, if_pos h]
    rfl
  · rw [if_neg h, if_neg h]

theorem record_definition_pos (loc : Loc String)
    (defs : List (String × List (Loc String)))
    (poss : List (String × Nat × Nat)) (p : String × Nat × Nat) :
    p ∈ (record_definition loc defs poss).2 ↔
      p ∈ poss ∨ p = (loc.path, loc.line, loc.column) := by
  have h2 : (record_definition loc defs poss).2 =
      if (loc.path, loc.line, loc.column) ∈ poss then poss
      else poss ++ [(loc.path, loc.line, loc.column)] := rfl
  rw [h2]
  by_cases h : (loc.path, loc.line, loc.column) ∈ poss
  · rw [if_pos h]
    constructor
    · exact Or.inl
    · rintro (hp | hp)
      · exact hp
      · exact hp ▸ h
  · rw [if_neg h]
    simp

theorem mem_record_definition_entry (loc : Loc String)
    (defs : List (String × List (Loc String)))
    (poss : List (String × Nat × Nat))
    (hname : ∀ n, ∀ x ∈ entryOf defs n, x.name = n) (n : String) (x : Loc String) :
    x ∈ entryOf (record_definition loc defs poss).1 n ↔
      x ∈ entryOf defs n ∨ (n = loc.name ∧ x = loc) := by
  rw [record_definition_entry]
  by_cases h : n = loc.name
  · rw [if_pos h]
    by_cases hany : (entryOf defs loc.name).any (fun item =>
        decide (item.path = loc.path ∧ item.line = loc.line ∧
          item.column = loc.column))
    · rw [if_pos hany]
      have hloc : loc ∈ entryOf defs loc.name := by
        obtain ⟨item, hitem, hdec⟩ := List.any_eq_true.mp hany
        have hprop := of_decide_eq_true hdec
        have hn : item.name = loc.name := hname loc.name item hitem
        have : item = loc := by
          cases item; cases loc
          simp_all
        exact this ▸ hitem
      subst h
      constructor
      · exact Or.inl
      · rintro (hx | ⟨_, hx⟩)
        · exact hx
        · exact hx ▸ hloc
    · rw [if_neg hany]
      subst h
      rw [List.mem_append, List.mem_singleton]
      constructor
      · rintro (hx | hx)
        · exact Or.inl hx
        · exact Or.inr ⟨rfl, hx⟩
      · rintro (hx | ⟨_, hx⟩)
        · exact Or.inl hx
        · exact Or.inr hx
  · rw [if_neg h]
    constructor
    · exact Or.inl
    · rintro (hx | ⟨hn, _⟩)
      · exact hx
      · exact absurd hn h

theorem record_definition_good (loc : Loc String)
    (st : List (String × List (Loc String)) × List (String × Nat × Nat))
    (h : GoodSyms st) : GoodSyms (record_definition loc st.1 st.2) := by
  obtain ⟨hname, hnodup, hpos⟩ := h
  refine ⟨?_, ?_, ?_⟩
  · intro n x hx
    rcases (mem_record_definition_entry loc st.1 st.2 hname n x).mp hx with hx' | ⟨hn, hx'⟩
    · exact hname n x hx'
    · rw [hx', hn]
  · intro n
    rw [record_definition_entry]
    by_cases h : n = loc.name
    · rw [if_pos h]
      by_cases hany : (entryOf st.1 loc.name).any (fun item =>
          decide (item.path = loc.path ∧ item.line = loc.line ∧
            item.column = loc.column))
      · rw [if_pos hany]; exact hnodup loc.name
      · rw [if_neg hany]
        rw [List.nodup_append]
        refine ⟨hnodup loc.name, by simp, ?_⟩
        intro y hy hy'
        rw [List.mem_singleton.mp hy'] at hy
        have : (entryOf st.1 loc.name).any (fun item =>
            decide (item.path = loc.path ∧ item.line = loc.line ∧
              item.column = loc.column)) := by
          refine List.any_eq_true.mpr ⟨loc, hy, ?_⟩
          exact decide_eq_true ⟨rfl, rfl, rfl⟩
        exact hany this
    · rw [if_neg h]; exact hnodup n
  · intro n x hx
    rcases (mem_record_definition_entry loc st.1 st.2 hname n x).mp hx with hx' | ⟨_, hx'⟩
    · exact (record_definition_pos loc st.1 st.2 _).mpr (Or.inl (hpos n x hx'))
    · exact (record_definition_pos loc st.1 st.2 _).mpr (Or.inr (by rw [hx']))

theorem foldDefinitions_invariant (locs : List (Loc String)) :
    ∀ acc, GoodSyms acc →
      GoodSyms (locs.foldl (fun acc loc => record_definition loc acc.1 acc.2) acc) := by
  induction locs with
  | nil => intro acc h; exact h
  | cons loc rest ih =>
      intro acc h
      rw [List.foldl_cons]
      exact ih _ (record_definition_good loc acc h)

theorem foldDefinitions_mem_entry (locs : List (Loc String)) :
    ∀ acc, GoodSyms acc → ∀ n x,
      (x ∈ entryOf (locs.foldl
          (fun acc loc => record_definition loc acc.1 acc.2) acc).1 n ↔
        x ∈ entryOf acc.1 n ∨ (x ∈ locs ∧ x.name = n)) := by
  induction locs with
  | nil => intro acc _ n x; simp
  | cons loc rest ih =>
      intro acc hgood n x
      rw [List.foldl_cons,
        ih _ (record_definition_good loc acc hgood) n x,
        mem_record_definition_entry loc acc.1 acc.2 hgood.1 n x]
      constructor
      · rintro ((hx | ⟨hn, hx⟩) | ⟨hx, hn⟩)
        · exact Or.inl hx
        · exact Or.inr ⟨hx ▸ List.mem_cons_self _ _, hx ▸ hn.symm⟩
        · exact Or.inr ⟨List.mem_cons_of_mem _ hx, hn⟩
      · rintro (hx | ⟨hx, hn⟩)
        · exact Or.inl (Or.inl hx)
        · rcases List.mem_cons.mp hx with heq | hmem
          · exact Or.inl (Or.inr ⟨heq ▸ hn.symm, heq⟩)
          · exact Or.inr ⟨hmem, hn⟩

theorem foldDefinitions_mem_pos (locs : List (Loc String)) :
    ∀ acc (p : String × Nat × Nat),
      (p ∈ (locs.foldl
          (fun acc loc => record_definition loc acc.1 acc.2) acc).2 ↔
        p ∈ acc.2 ∨ ∃ d ∈ locs, p = (d.path, d.line, d.column)) := by
  induction locs with
  | nil => intro acc p; simp
  | cons loc rest ih =>
      intro acc p
      rw [List.foldl_cons, ih, record_definition_pos]
      constructor
      · rintro ((hp | hp) | ⟨d, hd, hp⟩)
        · exact Or.inl hp
        · exact Or.inr ⟨loc, List.mem_cons_self _ _, hp⟩
        · exact Or.inr ⟨d, List.mem_cons_of_mem _ hd, hp⟩
      · rintro (hp | ⟨d, hd, hp⟩)
        · exact Or.inl (Or.inl hp)
        · rcases List.mem_cons.mp hd with heq | hmem
          · exact Or.inl (Or.inr (heq ▸ hp))
          · exact Or.inr ⟨d, hmem, hp⟩

theorem goodSyms_empty : GoodSyms (([], []) :
    List (String × List (Loc String)) × List (String × Nat × Nat)) := by
  refine ⟨?_, ?_, ?_⟩ <;> intro n <;> simp [entryOf, lookupL]

/-- Claim C3: after recording any list of emitted definitions, a reference
sitting at a recorded definition position yields no edges; any other
reference yields exactly one edge per distinct definition location of its
name (the stored entry is duplicate-free and holds exactly the recorded
definitions of that name); and no produced edge has usage equal to its
definition. -/
theorem make_edges_spec (defLocs : List (Loc String)) (u : Loc String)
    (eco : Ecosystem) :
    ((u.path, u.line, u.column) ∈ (foldDefinitions defLocs).2 →
        make_edges u eco (foldDefinitions defLocs).1 (foldDefinitions defLocs).2 = []) ∧
      ((u.path, u.line, u.column) ∉ (foldDefinitions defLocs).2 →
        make_edges u eco (foldDefinitions defLocs).1 (foldDefinitions defLocs).2 =
            (entryOf (foldDefinitions defLocs).1 u.name).map
              (fun d => { definition := d, usage := u, ecosystem := eco }) ∧
          (entryOf (foldDefinitions defLocs).1 u.name).Nodup ∧
          (∀ d, d ∈ entryOf (foldDefinitions defLocs).1 u.name ↔
            d ∈ defLocs ∧ d.name = u.name)) ∧
      (∀ p, p ∈ (foldDefinitions defLocs).2 ↔
        ∃ d ∈ defLocs, p = (d.path, d.line, d.column)) ∧
      (∀ e ∈ make_edges u eco (foldDefinitions defLocs).1 (foldDefinitions defLocs).2,
        e.usage = u ∧ e.ecosystem = eco ∧ e.usage ≠ e.definition) := by
  have hgood : GoodSyms (foldDefinitions defLocs) :=
    foldDefinitions_invariant defLocs ([], []) goodSyms_empty
  have hpos : ∀ p, p ∈ (foldDefinitions defLocs).2 ↔
      ∃ d ∈ defLocs, p = (d.path, d.line, d.column) := by
    intro p
    rw [foldDefinitions, foldDefinitions_mem_pos defLocs ([], []) p]
    simp
  have hentry : ∀ d, d ∈ entryOf (foldDefinitions defLocs).1 u.name ↔
      d ∈ defLocs ∧ d.name = u.name := by
    intro d
    rw [foldDefinitions, foldDefinitions_mem_entry defLocs ([], []) goodSyms_empty]
    simp [entryOf, lookupL]
  refine ⟨?_, ?_, hpos, ?_⟩
  · intro hmem
    unfold make_edges
    rw [if_pos hmem]
  · intro hmem
    refine ⟨?_, hgood.2.1 u.name, hentry⟩
    unfold make_edges
    rw [if_neg hmem]
    unfold entryOf
    cases lookupL (foldDefinitions defLocs).1 u.name with
    | none => rfl
    | some defs => rfl
  · intro e he
    unfold make_edges at he
    by_cases hmem : (u.path, u.line, u.column) ∈ (foldDefinitions defLocs).2
    · rw [if_pos hmem] at he
      simp at he
    · rw [if_neg hmem] at he
      have hdef : e.definition ∈ entryOf (foldDefinitions defLocs).1 u.name ∧
          e.usage = u ∧ e.ecosystem = eco := by
        cases hl : lookupL (foldDefinitions defLocs).1 u.name with
        | none => rw [hl] at he; simp at he
        | some defs =>
            rw [hl] at he
            obtain ⟨d, hd, hde⟩ := List.mem_map.mp he
            refine ⟨?_, by rw [← hde], by rw [← hde]⟩
            rw [entryOf, hl]
            exact (by rw [← hde]; exact hd : e.definition ∈ defs)
      obtain ⟨hdefmem, husage, heco⟩ := hdef
      refine ⟨husage, heco, ?_⟩
      intro heq
      have hdp : (e.definition.path, e.definition.line, e.definition.column) ∈
          (foldDefinitions defLocs).2 :=
        hgood.2.2 u.name e.definition hdefmem
      rw [← heq] at hdp
      rw [husage] at hdp
      exact hmem hdp

/-- Witness for claim C3 at a concrete table: a reference at a recorded
definition position produces nothing; a fresh reference of the same name
produces one deduplicated edge per definition location, never pointing at
itself. -/
theorem make_edges_spec_witness :
    make_edges ⟨"a.py", 1, 5, "foo"⟩ .python
        (foldDefinitions
          [⟨"a.py", 1, 5, "foo"⟩, ⟨"b.py", 2, 5, "foo"⟩, ⟨"a.py", 1, 5, "foo"⟩]).1
        (foldDefinitions
          [⟨"a.py", 1, 5, "foo"⟩, ⟨"b.py", 2, 5, "foo"⟩, ⟨"a.py", 1, 5, "foo"⟩]).2
        = [] ∧
      make_edges ⟨"c.py", 3, 1, "foo"⟩ .python
        (foldDefinitions
          [⟨"a.py", 1, 5, "foo"⟩, ⟨"b.py", 2, 5, "foo"⟩, ⟨"a.py", 1, 5, "foo"⟩]).1
        (foldDefinitions
          [⟨"a.py", 1, 5, "foo"⟩, ⟨"b.py", 2, 5, "foo"⟩, ⟨"a.py", 1, 5, "foo"⟩]).2
        = [{ definition := ⟨"a.py", 1, 5, "foo"⟩, usage := ⟨"c.py", 3, 1, "foo"⟩,
             ecosystem := .python },
           { definition := ⟨"b.py", 2, 5, "foo"⟩, usage := ⟨"c.py", 3, 1, "foo"⟩,
             ecosystem := .python }] := by
  constructor
  · exact (make_edges_spec
      [⟨"a.py", 1, 5, "foo"⟩, ⟨"b.py", 2, 5, "foo"⟩, ⟨"a.py", 1, 5, "foo"⟩]
      ⟨"a.py", 1, 5, "foo"⟩ .python).1 (by decide)
  · exact ((make_edges_spec
      [⟨"a.py", 1, 5, "foo"⟩, ⟨"b.py", 2, 5, "foo"⟩, ⟨"a.py", 1, 5, "foo"⟩]
      ⟨"c.py", 3, 1, "foo"⟩ .python).2.1 (by decide)).1.trans (by decide)

/-! ## Claim C1: the scoring formulas of build_rows -/

theorem addF_right_comm (b a₁ a₂ : F) :
    addF (addF b a₁) a₂ = addF (addF b a₂) a₁ := by
  rcases b with _ | b <;> rcases a₁ with _ | a₁ <;> rcases a₂ with _ | a₂ <;>
    simp [addF] <;> try ring

theorem foldl_addF_perm {l₁ l₂ : List F} (h : l₁.Perm l₂) :
    ∀ i : F, l₁.foldl addF i = l₂.foldl addF i := by
  induction h with
  | nil => intro i; rfl
  | cons x _ ih => intro i; simp only [List.foldl_cons]; exact ih _
  | swap x y l => intro i; simp only [List.foldl_cons, addF_right_comm]
  | trans _ _ ih₁ ih₂ => intro i; exact (ih₁ i).trans (ih₂ i)

theorem weightedRefs_sortByCmp {κ : Type} [DecidableEq κ]
    (c : Loc κ → Loc κ → Ordering) (file_ranks frecency : List (κ × F))
    (rs : List (Loc κ)) :
    weightedRefs file_ranks frecency (sortByCmp c rs) =
      weightedRefs file_ranks frecency rs := by
  unfold weightedRefs sortByCmp
  exact foldl_addF_perm
    ((List.perm_insertionSort _ rs).map (refWeight file_ranks frecency)) _

/-- The number of grouped keys carrying a given name (with distinct keys:
the number of distinct definitions of that name in the ecosystem). -/
def nameCountIn {κ : Type} [DecidableEq κ] (keys : List (Loc κ)) (n : κ) : Nat :=
  keys.countP (fun l => decide (l.name = n))

theorem mkNameCounts_lookup_fold {κ : Type} [DecidableEq κ] (keys : List (Loc κ)) :
    ∀ (acc : List (κ × Nat)) (n : κ),
      (lookupL acc n = none →
        lookupL (keys.foldl (fun m d => updateAssoc d.name (· + 1) 0 m) acc) n =
          (if nameCountIn keys n = 0 then none else some (nameCountIn keys n))) ∧
      (∀ v, lookupL acc n = some v →
        lookupL (keys.foldl (fun m d => updateAssoc d.name (· + 1) 0 m) acc) n =
          some (v + nameCountIn keys n)) := by
  induction keys with
  | nil =>
      intro acc n
      constructor
      · intro h; simpa [nameCountIn] using h
      · intro v h; simpa [nameCountIn] using h
  | cons d rest ih =>
      intro acc n
      constructor
      · intro h
        rw [List.foldl_cons]
        by_cases hn : n = d.name
        · subst hn
          have hupd : lookupL (updateAssoc d.name (· + 1) 0 acc) d.name =
              some ((lookupL acc d.name).getD 0 + 1) := by
            rw [lookupL_updateAssoc, if_pos rfl]
          rw [h] at hupd
          simp only [Option.getD_none] at hupd
          have hres := (ih (updateAssoc d.name (· + 1) 0 acc) d.name).2 _ hupd
          rw [hres]
          have hcnt : nameCountIn (d :: rest) d.name = nameCountIn rest d.name + 1 := by
            have hd : decide (d.name = d.name) = true := decide_eq_true rfl
            simp [nameCountIn, List.countP_cons, hd]
          rw [hcnt, if_neg (by omega)]
          congr 1
          omega
        · have hupd : lookupL (updateAssoc d.name (· + 1) 0 acc) n =
              lookupL acc n := by
            rw [lookupL_updateAssoc, if_neg hn]
          have hcnt : nameCountIn (d :: rest) n = nameCountIn rest n := by
            have hd : decide (d.name = n) = false :=
              decide_eq_false (fun h' => hn h'.symm)
            simp [nameCountIn, List.countP_cons, hd]
          rw [hcnt]
          exact (ih _ n).1 (hupd.trans h)
      · intro v h
        rw [List.foldl_cons]
        by_cases hn : n = d.name
        · subst hn
          have hupd : lookupL (updateAssoc d.name (· + 1) 0 acc) d.name =
              some ((lookupL acc d.name).getD 0 + 1) := by
            rw [lookupL_updateAssoc, if_pos rfl]
          rw [h] at hupd
          simp only [Option.getD_some] at hupd
          have hres := (ih (updateAssoc d.name (· + 1) 0 acc) d.name).2 _ hupd
          rw [hres]
          have hcnt : nameCountIn (d :: rest) d.name = nameCountIn rest d.name + 1 := by
            have hd : decide (d.name = d.name) = true := decide_eq_true rfl
            simp [nameCountIn, List.countP_cons, hd]
          rw [hcnt]
          congr 1
          omega
        · have hupd : lookupL (updateAssoc d.name (· + 1) 0 acc) n =
              lookupL acc n := by
            rw [lookupL_updateAssoc, if_neg hn]
          have hcnt : nameCountIn (d :: rest) n = nameCountIn rest n := by
            have hd : decide (d.name = n) = false :=
              decide_eq_false (fun h' => hn h'.symm)
            simp [nameCountIn, List.countP_cons, hd]
          rw [hcnt]
          exact (ih _ n).2 v (hupd.trans h)

theorem lookup_mkNameCounts {κ : Type} [DecidableEq κ] (keys : List (Loc κ)) (n : κ) :
    lookupL (mkNameCounts keys) n =
      if nameCountIn keys n = 0 then none else some (nameCountIn keys n) :=
  (mkNameCounts_lookup_fold keys [] n).1 rfl

/-- Claim C1: each row built by build_rows carries exactly the scoring
formulas of the specification: the references (a permutation of the
grouped reference list) are weighted by file_rank (default 0) times
frecency (default 1); local_score is their sum divided by the name count
(the number of grouped definitions sharing the name, at least 1); rank is
local_score times the file rank of the definition path (default 0). -/
theorem build_rows_spec {κ : Type} [DecidableEq κ] (kcmp : κ → κ → Ordering)
    (grouped : List (Loc κ × List (Loc κ)))
    (file_ranks frecency : List (κ × F))
    (definition_lines : List (Loc κ × String))
    (_hkeys : (grouped.map Prod.fst).Nodup)
    (d : Loc κ) (rs : List (Loc κ)) (hmem : (d, rs) ∈ grouped) :
    ∃ row ∈ build_rows kcmp grouped file_ranks frecency
        (mkNameCounts (grouped.map Prod.fst)) definition_lines,
      row.definition = d ∧
      row.references.Perm rs ∧
      1 ≤ nameCountIn (grouped.map Prod.fst) d.name ∧
      row.local_score = divF (weightedRefs file_ranks frecency rs)
        (some ((nameCountIn (grouped.map Prod.fst) d.name : Nat) : ℚ)) ∧
      row.file_rank = (lookupL file_ranks d.path).getD (some 0) ∧
      row.rank = mulF row.local_score row.file_rank := by
  have hdkey : d ∈ grouped.map Prod.fst := by
    exact List.mem_map.mpr ⟨(d, rs), hmem, rfl⟩
  have hcnt : 1 ≤ nameCountIn (grouped.map Prod.fst) d.name := by
    have : 0 < (grouped.map Prod.fst).countP (fun l => decide (l.name = d.name)) :=
      List.countP_pos_iff.mpr ⟨d, hdkey, decide_eq_true rfl⟩
    exact this
  have hlook : (lookupL (mkNameCounts (grouped.map Prod.fst)) d.name).getD 1 =
      nameCountIn (grouped.map Prod.fst) d.name := by
    rw [lookup_mkNameCounts, if_neg (by omega)]
    rfl
  refine ⟨_, List.mem_map_of_mem _ hmem, rfl, ?_, hcnt, ?_, rfl, rfl⟩
  · exact List.perm_insertionSort _ rs
  · show divF (weightedRefs file_ranks frecency (sortByCmp (cmpKeyLoc kcmp) rs))
        (some (((lookupL (mkNameCounts (grouped.map Prod.fst)) d.name).getD 1 : Nat) : ℚ))
      = divF (weightedRefs file_ranks frecency rs)
        (some ((nameCountIn (grouped.map Prod.fst) d.name : Nat) : ℚ))
    rw [weightedRefs_sortByCmp, hlook]

/-- Concrete S1-style grouped mapping: two definitions named foo and one
named bar, each with one cross-file use. -/
def w1Foo : Loc String := ⟨"a.py", 1, 5, "foo"⟩
def w1Foo' : Loc String := ⟨"a.py", 4, 5, "foo"⟩
def w1Bar : Loc String := ⟨"a.py", 7, 5, "bar"⟩
def w1UseFoo : Loc String := ⟨"c.py", 3, 1, "foo"⟩
def w1UseBar : Loc String := ⟨"c.py", 4, 1, "bar"⟩

def w1Grouped : List (Loc String × List (Loc String)) :=
  [(w1Foo, [w1UseFoo]), (w1Foo', [w1UseFoo]), (w1Bar, [w1UseBar])]

def w1Ranks : List (String × F) := [("a.py", some 1), ("c.py", some 1)]

/-- Witness for claim C1: the S1-style scenario with two definitions named
foo and one named bar grouped in one ecosystem. -/
theorem build_rows_spec_witness :
    ∃ row ∈ build_rows (fun _ _ : String => Ordering.eq) w1Grouped w1Ranks []
        (mkNameCounts (w1Grouped.map Prod.fst)) [],
      row.definition = w1Foo ∧
      row.references.Perm [w1UseFoo] ∧
      1 ≤ nameCountIn (w1Grouped.map Prod.fst) w1Foo.name ∧
      row.local_score = divF (weightedRefs w1Ranks [] [w1UseFoo])
        (some ((nameCountIn (w1Grouped.map Prod.fst) w1Foo.name : Nat) : ℚ)) ∧
      row.file_rank = (lookupL w1Ranks w1Foo.path).getD (some 0) ∧
      row.rank = mulF row.local_score row.file_rank :=
  build_rows_spec (fun _ _ => Ordering.eq) w1Grouped w1Ranks [] []
    (by decide) w1Foo [w1UseFoo]
    (by simp [w1Grouped])

/-! ## Claim C4: references never cross ecosystems (find_references) -/

/-- Every definition and reference of a per-file result resolves, through
its path, to the ecosystem of the result. -/
def ResultTagged (result : FileResult) : Prop :=
  ∀ x : Loc String, (x ∈ result.definitions ∨ x ∈ result.references) →
    ecosystem_for_path x.path = some result.ecosystem

/-- Every stored definition and reference of an ecosystem symbol table
resolves, through its path, to that ecosystem. -/
def TabOk (eco : Ecosystem) (tab : EcosystemSymbols) : Prop :=
  (∀ n x, x ∈ entryOf tab.definitions n → ecosystem_for_path x.path = some eco) ∧
    (∀ r ∈ tab.references, ecosystem_for_path r.path = some eco)

theorem collect_definitions_path (path source : String) (raw : List RawLoc) :
    ∀ x ∈ (collect_definitions path source raw).1, x.path = path := by
  suffices h : ∀ (acc : List (Loc String) × List (Loc String × String)),
      (∀ x ∈ acc.1, x.path = path) →
      ∀ x ∈ (raw.foldl
        (fun acc r =>
          let loc := attachPath path r
          (acc.1 ++ [loc], record_definition_line loc source acc.2)) acc).1,
        x.path = path by
    exact h ([], []) (by simp)
  induction raw with
  | nil => intro acc hacc x hx; exact hacc x hx
  | cons r rest ih =>
      intro acc hacc x hx
      rw [List.foldl_cons] at hx
      refine ih _ ?_ x hx
      intro y hy
      rcases List.mem_append.mp hy with hy' | hy'
      · exact hacc y hy'
      · rw [List.mem_singleton.mp hy']
        rfl

theorem process_file_tagged (extract : Language → String → Option ParseOut)
    (path source : String) (result : FileResult)
    (h : process_file extract path source = some result) : ResultTagged result := by
  unfold process_file at h
  cases hl : language_for_path path with
  | none => rw [hl] at h; simp at h
  | some lang =>
      rw [hl] at h
      dsimp only at h
      cases he : extract lang source with
      | none => rw [he] at h; simp at h
      | some out =>
          rw [he] at h
          simp only [Option.some.injEq] at h
          have heco : ecosystem_for_path path = some (ecosystem_for_language lang) := by
            rw [ecosystem_for_path, hl]
            rfl
          intro x hx
          rw [← h] at hx
          have hpath : x.path = path := by
            rcases hx with hx | hx
            · exact collect_definitions_path path source out.defs x hx
            · obtain ⟨r, _, hr⟩ := List.mem_map.mp hx
              rw [← hr]
              rfl
          rw [← h]
          rw [hpath, heco]

theorem mem_record_definition_entry_fwd (loc : Loc String)
    (defs : List (String × List (Loc String)))
    (poss : List (String × Nat × Nat)) (n : String) (x : Loc String)
    (hx : x ∈ entryOf (record_definition loc defs poss).1 n) :
    x ∈ entryOf defs n ∨ x = loc := by
  rw [record_definition_entry] at hx
  by_cases h : n = loc.name
  · rw [if_pos h] at hx
    by_cases hany : (entryOf defs loc.name).any (fun item =>
        decide (item.path = loc.path ∧ item.line = loc.line ∧
          item.column = loc.column))
    · rw [if_pos hany] at hx
      exact Or.inl (h ▸ hx)
    · rw [if_neg hany] at hx
      rcases List.mem_append.mp hx with hx' | hx'
      · exact Or.inl (h ▸ hx')
      · exact Or.inr (List.mem_singleton.mp hx')
  · rw [if_neg h] at hx
    exact Or.inl hx

theorem foldDefinitions_mem_entry_fwd (locs : List (Loc String)) :
    ∀ (acc : List (String × List (Loc String)) × List (String × Nat × Nat))
      (n : String) (x : Loc String),
      x ∈ entryOf (locs.foldl
          (fun acc loc => record_definition loc acc.1 acc.2) acc).1 n →
        x ∈ entryOf acc.1 n ∨ x ∈ locs := by
  induction locs with
  | nil => intro acc n x hx; exact Or.inl hx
  | cons loc rest ih =>
      intro acc n x hx
      rw [List.foldl_cons] at hx
      rcases ih _ n x hx with hx' | hx'
      · rcases mem_record_definition_entry_fwd loc acc.1 acc.2 n x hx' with hx'' | hx''
        · exact Or.inl hx''
        · exact Or.inr (hx'' ▸ List.mem_cons_self _ _)
      · exact Or.inr (List.mem_cons_of_mem _ hx')

theorem mergeFileResult_tabOk (eco : Ecosystem) (tab : EcosystemSymbols)
    (result : FileResult) (htab : TabOk eco tab) (hres : ResultTagged result)
    (heco : result.ecosystem = eco) : TabOk eco (mergeFileResult tab result) := by
  constructor
  · intro n x hx
    have hdefs : (mergeFileResult tab result).definitions =
        (result.definitions.foldl
          (fun acc loc => record_definition loc acc.1 acc.2)
          (tab.definitions, tab.definition_positions)).1 := rfl
    rw [hdefs] at hx
    rcases foldDefinitions_mem_entry_fwd result.definitions
        (tab.definitions, tab.definition_positions) n x hx with hx' | hx'
    · exact htab.1 n x hx'
    · rw [← heco]
      exact hres x (Or.inl hx')
  · intro r hr
    have hrefs : (mergeFileResult tab result).references =
        tab.references ++ result.references := rfl
    rw [hrefs] at hr
    rcases List.mem_append.mp hr with hr' | hr'
    · exact htab.2 r hr'
    · rw [← heco]
      exact hres r (Or.inr hr')

theorem tabOk_empty (eco : Ecosystem) : TabOk eco emptySymbols := by
  constructor
  · intro n x hx
    simp [entryOf, emptySymbols, lookupL] at hx
  · intro r hr
    simp [emptySymbols] at hr

theorem mem_updateAssoc {κ β : Type} [DecidableEq κ]
    (k : κ) (f : β → β) (dflt : β) (m : List (κ × β)) (e : κ × β)
    (he : e ∈ updateAssoc k f dflt m) :
    e ∈ m ∨ ∃ v, e = (k, f v) ∧ (v = dflt ∨ (k, v) ∈ m) := by
  induction m with
  | nil =>
      rw [updateAssoc] at he
      exact Or.inr ⟨dflt, List.mem_singleton.mp he, Or.inl rfl⟩
  | cons p rest ih =>
      obtain ⟨k₀, v₀⟩ := p
      rw [updateAssoc] at he
      by_cases h : k₀ = k
      · rw [if_pos h] at he
        rcases List.mem_cons.mp he with he' | he'
        · exact Or.inr ⟨v₀, h ▸ he', Or.inr (h ▸ List.mem_cons_self _ _)⟩
        · exact Or.inl (List.mem_cons_of_mem _ he')
      · rw [if_neg h] at he
        rcases List.mem_cons.mp he with he' | he'
        · exact Or.inl (he' ▸ List.mem_cons_self _ _)
        · rcases ih he' with he'' | ⟨v, hv, hv'⟩
          · exact Or.inl (List.mem_cons_of_mem _ he'')
          · refine Or.inr ⟨v, hv, ?_⟩
            rcases hv' with hv' | hv'
            · exact Or.inl hv'
            · exact Or.inr (List.mem_cons_of_mem _ hv')

theorem symbols_by_ecosystem_tabOk (results : List FileResult)
    (hres : ∀ r ∈ results, ResultTagged r) :
    ∀ p ∈ symbols_by_ecosystem results, TabOk p.1 p.2 := by
  suffices h : ∀ (acc : List (Ecosystem × EcosystemSymbols)),
      (∀ p ∈ acc, TabOk p.1 p.2) →
      ∀ p ∈ results.foldl
        (fun m result =>
          updateAssoc result.ecosystem (fun tab => mergeFileResult tab result)
            emptySymbols m) acc, TabOk p.1 p.2 by
    exact h [] (by simp)
  induction results with
  | nil => intro acc hacc p hp; exact hacc p hp
  | cons result rest ih =>
      intro acc hacc p hp
      rw [List.foldl_cons] at hp
      have hres' : ∀ r ∈ rest, ResultTagged r :=
        fun r hr => hres r (List.mem_cons_of_mem _ hr)
      refine ih hres' _ ?_ p hp
      intro q hq
      rcases mem_updateAssoc _ _ _ _ q hq with hq' | ⟨v, hv, hv'⟩
      · exact hacc q hq'
      · have htagged : ResultTagged result := hres result (List.mem_cons_self _ _)
        have hvok : TabOk result.ecosystem v := by
          rcases hv' with hv' | hv'
          · exact hv' ▸ tabOk_empty result.ecosystem
          · exact hacc (result.ecosystem, v) hv'
        rw [hv]
        exact mergeFileResult_tabOk result.ecosystem v result hvok htagged rfl

theorem make_edges_origin (r : Loc String) (eco : Ecosystem)
    (defs : List (String × List (Loc String)))
    (poss : List (String × Nat × Nat)) (e : ReferenceEdge String)
    (he : e ∈ make_edges r eco defs poss) :
    e.usage = r ∧ e.ecosystem = eco ∧ e.definition ∈ entryOf defs r.name := by
  unfold make_edges at he
  by_cases hmem : (r.path, r.line, r.column) ∈ poss
  · rw [if_pos hmem] at he
    simp at he
  · rw [if_neg hmem] at he
    cases hl : lookupL defs r.name with
    | none => rw [hl] at he; simp at he
    | some entry =>
        rw [hl] at he
        obtain ⟨d, hd, hde⟩ := List.mem_map.mp he
        exact ⟨by rw [← hde], by rw [← hde], by
          rw [entryOf, hl]
          exact (by rw [← hde]; exact hd : e.definition ∈ entry)⟩

/-- Claim C4: every edge produced by find_references connects a definition
and a usage whose file paths both resolve to the ecosystem of the edge; a
reference never matches a definition of a different ecosystem. -/
theorem find_references_ecosystem_isolated
    (extract : Language → String → Option ParseOut)
    (files : List (Except CruxlinesError (String × String)))
    (scan : ReferenceScan) (hscan : find_references extract files = .ok scan)
    (e : ReferenceEdge String) (he : e ∈ scan.edges) :
    ecosystem_for_path e.definition.path = some e.ecosystem ∧
      ecosystem_for_path e.usage.path = some e.ecosystem := by
  have hscan' : scan = scanOfSymbols (symbols_by_ecosystem
      (((files.filterMap (fun item => item.toOption)).filterMap
        (fun e => process_file extract e.1 e.2)))) := by
    have : find_references extract files = .ok (scanOfSymbols (symbols_by_ecosystem
        (((files.filterMap (fun item => item.toOption)).filterMap
          (fun e => process_file extract e.1 e.2))))) := rfl
    rw [this] at hscan
    exact (Except.ok.inj hscan).symm
  have hresults : ∀ r ∈ ((files.filterMap (fun item => item.toOption)).filterMap
      (fun e => process_file extract e.1 e.2)), ResultTagged r := by
    intro r hr
    obtain ⟨p, _, hp⟩ := List.mem_filterMap.mp hr
    exact process_file_tagged extract p.1 p.2 r hp
  have htabs := symbols_by_ecosystem_tabOk _ hresults
  rw [hscan'] at he
  have hedges : (scanOfSymbols (symbols_by_ecosystem
      (((files.filterMap (fun item => item.toOption)).filterMap
        (fun e => process_file extract e.1 e.2))))).edges =
      (symbols_by_ecosystem
        (((files.filterMap (fun item => item.toOption)).filterMap
          (fun e => process_file extract e.1 e.2)))).flatMap (fun p =>
        p.2.references.flatMap (fun r =>
          make_edges r p.1 p.2.definitions p.2.definition_positions)) := rfl
  rw [hedges] at he
  obtain ⟨p, hp, he'⟩ := List.mem_flatMap.mp he
  obtain ⟨r, hr, he''⟩ := List.mem_flatMap.mp he'
  obtain ⟨husage, heco, hdef⟩ := make_edges_origin r p.1 p.2.definitions
    p.2.definition_positions e he''
  have htab := htabs p hp
  constructor
  · rw [heco]
    exact htab.1 r.name e.definition hdef
  · rw [heco, husage]
    exact htab.2 r hr

/-- Concrete extractor for the claim C4 witness. -/
def w4Extract : Language → String → Option ParseOut := fun _ _ =>
  some { defs := [⟨1, 1, "foo"⟩], refs := [⟨2, 3, "foo"⟩] }

/-- Concrete scan of the claim C4 witness. -/
def w4Scan : ReferenceScan :=
  { edges := [{ definition := ⟨"a.py", 1, 1, "foo"⟩,
                usage := ⟨"a.py", 2, 3, "foo"⟩,
                ecosystem := .python }],
    definition_lines := [(⟨"a.py", 1, 1, "foo"⟩, "def foo():")] }

/-- Witness for claim C4 at a concrete single-file run. -/
theorem find_references_ecosystem_isolated_witness :
    ecosystem_for_path
        ({ definition := (⟨"a.py", 1, 1, "foo"⟩ : Loc String),
           usage := ⟨"a.py", 2, 3, "foo"⟩,
           ecosystem := .python } : ReferenceEdge String).definition.path
        = some Ecosystem.python ∧
      ecosystem_for_path
        ({ definition := (⟨"a.py", 1, 1, "foo"⟩ : Loc String),
           usage := ⟨"a.py", 2, 3, "foo"⟩,
           ecosystem := .python } : ReferenceEdge String).usage.path
        = some Ecosystem.python :=
  find_references_ecosystem_isolated w4Extract
    [.ok ("a.py", "def foo():\n    foo()\n")] w4Scan rfl _ (by decide)

/-! ## Claim C2: row and reference ordering

Spur handles compare by their numeric value (interning order), so the
sorts of analysis.rs order paths and names by handle, not by string
content.  The locations here carry Nat handles; `resolve` maps them back
to strings for the claim reading. -/

theorem pairwise_orderedInsert {α : Type} (r : α → α → Prop) [DecidableRel r]
    (x : α) (l : List α)
    (htot : ∀ b ∈ l, r x b ∨ r b x)
    (htr : ∀ b ∈ l, ∀ c ∈ l, r x b → r b c → r x c)
    (hl : l.Pairwise r) :
    (List.orderedInsert r x l).Pairwise r := by
  induction l with
  | nil => simp
  | cons y t ih =>
      rw [List.orderedInsert]
      by_cases hxy : r x y
      · rw [if_pos hxy]
        refine List.Pairwise.cons ?_ hl
        intro z hz
        rcases List.mem_cons.mp hz with rfl | hz'
        · exact hxy
        · exact htr y (List.mem_cons_self _ _) z (List.mem_cons_of_mem _ hz')
            hxy ((List.pairwise_cons.mp hl).1 z hz')
      · rw [if_neg hxy]
        have hyx : r y x := (htot y (List.mem_cons_self _ _)).resolve_left hxy
        refine List.Pairwise.cons ?_ (ih ?_ ?_ (List.pairwise_cons.mp hl).2)
        · intro z hz
          rcases (List.mem_orderedInsert r).mp hz with rfl | hz'
          · exact hyx
          · exact (List.pairwise_cons.mp hl).1 z hz'
        · intro b hb
          exact htot b (List.mem_cons_of_mem _ hb)
        · intro b hb c hc
          exact htr b (List.mem_cons_of_mem _ hb) c (List.mem_cons_of_mem _ hc)

theorem pairwise_insertionSort {α : Type} (r : α → α → Prop) [DecidableRel r]
    (l : List α)
    (htot : ∀ a ∈ l, ∀ b ∈ l, r a b ∨ r b a)
    (htr : ∀ a ∈ l, ∀ b ∈ l, ∀ c ∈ l, r a b → r b c → r a c) :
    (List.insertionSort r l).Pairwise r := by
  induction l with
  | nil => simp
  | cons x t ih =>
      rw [List.insertionSort]
      have hperm := List.perm_insertionSort r t
      refine pairwise_orderedInsert r x _ ?_ ?_ (ih ?_ ?_)
      · intro b hb
        exact htot x (List.mem_cons_self _ _) b
          (List.mem_cons_of_mem _ (hperm.mem_iff.mp hb))
      · intro b hb c hc
        exact htr x (List.mem_cons_self _ _) b
          (List.mem_cons_of_mem _ (hperm.mem_iff.mp hb)) c
          (List.mem_cons_of_mem _ (hperm.mem_iff.mp hc))
      · intro a ha b hb
        exact htot a (List.mem_cons_of_mem _ ha) b (List.mem_cons_of_mem _ hb)
      · intro a ha b hb c hc
        exact htr a (List.mem_cons_of_mem _ ha) b (List.mem_cons_of_mem _ hb)
          c (List.mem_cons_of_mem _ hc)

theorem cmpKeyLoc_ncmp_gt_iff (a b : Loc Nat) :
    cmpKeyLoc ncmp a b = .gt ↔
      (b.path < a.path ∨ (a.path = b.path ∧
        (b.line < a.line ∨ (a.line = b.line ∧
          (b.column < a.column ∨ (a.column = b.column ∧ b.name < a.name)))))) := by
  unfold cmpKeyLoc
  rw [ordering_then_eq_gt, ordering_then_eq_gt, ordering_then_eq_gt,
    ncmp_eq_gt, ncmp_eq_eq, ncmp_eq_gt, ncmp_eq_eq, ncmp_eq_gt, ncmp_eq_eq,
    ncmp_eq_gt]

theorem leLocKeyN_total (a b : Loc Nat) :
    (cmpKeyLoc ncmp a b ≠ .gt) ∨ (cmpKeyLoc ncmp b a ≠ .gt) := by
  by_cases h : cmpKeyLoc ncmp a b = .gt
  · right
    intro h'
    rw [cmpKeyLoc_ncmp_gt_iff] at h h'
    omega
  · left; exact h

theorem leLocKeyN_trans (a b c : Loc Nat)
    (h₁ : cmpKeyLoc ncmp a b ≠ .gt) (h₂ : cmpKeyLoc ncmp b c ≠ .gt) :
    cmpKeyLoc ncmp a c ≠ .gt := by
  intro h₃
  simp only [ne_eq, cmpKeyLoc_ncmp_gt_iff] at h₁ h₂
  rw [cmpKeyLoc_ncmp_gt_iff] at h₃
  omega

theorem cmpRows_gt_iff_fin (a b : OutputRow Nat) (qa qb : ℚ)
    (ha : a.rank = some qa) (hb : b.rank = some qb) :
    cmpRows ncmp a b = .gt ↔
      (qa < qb ∨ (qb = qa ∧ cmpKeyLoc ncmp a.definition b.definition = .gt)) := by
  unfold cmpRows
  rw [ha, hb]
  have hp : pcmpF (some qb) (some qa) = some (qcmp qb qa) := rfl
  rw [hp, Option.getD_some, ordering_then_eq_gt, qcmp_eq_gt, qcmp_eq_eq]

theorem leRowN_total_of_fin (a b : OutputRow Nat)
    (ha : ∃ q, a.rank = some q) (hb : ∃ q, b.rank = some q) :
    (cmpRows ncmp a b ≠ .gt) ∨ (cmpRows ncmp b a ≠ .gt) := by
  obtain ⟨qa, ha⟩ := ha
  obtain ⟨qb, hb⟩ := hb
  by_cases h : cmpRows ncmp a b = .gt
  · right
    intro h'
    rw [cmpRows_gt_iff_fin a b qa qb ha hb] at h
    rw [cmpRows_gt_iff_fin b a qb qa hb ha] at h'
    rcases h with h | ⟨he, hk⟩ <;> rcases h' with h' | ⟨he', hk'⟩
    · linarith
    · linarith
    · linarith
    · rw [cmpKeyLoc_ncmp_gt_iff] at hk hk'
      omega
  · left; exact h

theorem leRowN_trans_of_fin (a b c : OutputRow Nat)
    (ha : ∃ q, a.rank = some q) (hb : ∃ q, b.rank = some q)
    (hc : ∃ q, c.rank = some q)
    (h₁ : cmpRows ncmp a b ≠ .gt) (h₂ : cmpRows ncmp b c ≠ .gt) :
    cmpRows ncmp a c ≠ .gt := by
  obtain ⟨qa, ha⟩ := ha
  obtain ⟨qb, hb⟩ := hb
  obtain ⟨qc, hc⟩ := hc
  intro h₃
  simp only [ne_eq, cmpRows_gt_iff_fin a b qa qb ha hb] at h₁
  simp only [ne_eq, cmpRows_gt_iff_fin b c qb qc hb hc] at h₂
  rw [cmpRows_gt_iff_fin a c qa qc ha hc] at h₃
  push_neg at h₁ h₂
  rcases h₃ with h₃ | ⟨he, hk⟩
  · have hba : qb ≤ qa := h₁.1
    have hcb : qc ≤ qb := h₂.1
    linarith
  · have hba : qb ≤ qa := h₁.1
    have hcb : qc ≤ qb := h₂.1
    have hab : qb = qa := le_antisymm hba (by linarith)
    have hbc : qc = qb := le_antisymm hcb (by linarith)
    exact leLocKeyN_trans a.definition b.definition c.definition
      (h₁.2 hab) (h₂.2 hbc) hk

theorem lookup_getD_fin {κ : Type} [DecidableEq κ] (m : List (κ × F))
    (hf : ∀ p v, (p, v) ∈ m → ∃ q, v = some q) (k : κ) (d : ℚ) :
    ∃ q, (lookupL m k).getD (some d) = some q := by
  cases hl : lookupL m k with
  | none => exact ⟨d, rfl⟩
  | some v =>
      obtain ⟨q, hq⟩ := hf k v (lookupL_mem hl)
      exact ⟨q, by rw [Option.getD_some, hq]⟩

theorem foldl_addF_fin (l : List F) (h : ∀ x ∈ l, ∃ q, x = some q) :
    ∀ i : ℚ, ∃ q, l.foldl addF (some i) = some q := by
  induction l with
  | nil => intro i; exact ⟨i, rfl⟩
  | cons x t ih =>
      intro i
      obtain ⟨qx, hx⟩ := h x (List.mem_cons_self _ _)
      rw [List.foldl_cons, hx]
      have : addF (some i) (some qx) = some (i + qx) := rfl
      rw [this]
      exact ih (fun y hy => h y (List.mem_cons_of_mem _ hy)) (i + qx)

theorem weightedRefs_fin {κ : Type} [DecidableEq κ]
    (file_ranks frecency : List (κ × F)) (refs : List (Loc κ))
    (hfr : ∀ p v, (p, v) ∈ file_ranks → ∃ q, v = some q)
    (hfc : ∀ p v, (p, v) ∈ frecency → ∃ q, v = some q) :
    ∃ q, weightedRefs file_ranks frecency refs = some q := by
  unfold weightedRefs
  refine foldl_addF_fin _ ?_ 0
  intro x hx
  obtain ⟨r, _, hr⟩ := List.mem_map.mp hx
  obtain ⟨q₁, h₁⟩ := lookup_getD_fin file_ranks hfr r.path 0
  obtain ⟨q₂, h₂⟩ := lookup_getD_fin frecency hfc r.path 1
  refine ⟨q₁ * q₂, ?_⟩
  rw [← hr]
  unfold refWeight
  rw [h₁, h₂]
  rfl

theorem build_rows_rank_fin {κ : Type} [DecidableEq κ] (kcmp : κ → κ → Ordering)
    (grouped : List (Loc κ × List (Loc κ)))
    (file_ranks frecency : List (κ × F)) (name_counts : List (κ × Nat))
    (definition_lines : List (Loc κ × String))
    (hfr : ∀ p v, (p, v) ∈ file_ranks → ∃ q, v = some q)
    (hfc : ∀ p v, (p, v) ∈ frecency → ∃ q, v = some q)
    (row : OutputRow κ)
    (hrow : row ∈ build_rows kcmp grouped file_ranks frecency name_counts
      definition_lines) :
    ∃ q, row.rank = some q := by
  obtain ⟨e, _, he⟩ := List.mem_map.mp hrow
  obtain ⟨qw, hw⟩ := weightedRefs_fin file_ranks frecency
    (sortByCmp (cmpKeyLoc kcmp) e.2) hfr hfc
  obtain ⟨qf, hf⟩ := lookup_getD_fin file_ranks hfr e.1.path 0
  refine ⟨qw / ((lookupL name_counts e.1.name).getD 1 : Nat) * qf, ?_⟩
  rw [← he]
  show mulF (divF (weightedRefs file_ranks frecency (sortByCmp (cmpKeyLoc kcmp) e.2))
      (some (((lookupL name_counts e.1.name).getD 1 : Nat) : ℚ)))
    ((lookupL file_ranks e.1.path).getD (some 0)) = _
  rw [hw, hf]
  rfl

theorem rowsFromScan_mem (kcmp : Nat → Nat → Ordering)
    (rank_files : List (Loc Nat × List (Loc Nat)) → List (Nat × F))
    (edges : List (ReferenceEdge Nat)) (frecency : List (Nat × F))
    (definition_lines : List (Loc Nat × String)) (row : OutputRow Nat)
    (hrow : row ∈ rowsFromScan kcmp rank_files edges frecency definition_lines) :
    ∃ g, row ∈ build_rows kcmp g (rank_files g) frecency
      (mkNameCounts (g.map Prod.fst)) definition_lines := by
  unfold rowsFromScan sortByCmp at hrow
  have hperm := List.perm_insertionSort
    (fun a b => cmpRows kcmp a b ≠ .gt)
    ((group_edges_by_ecosystem edges).map (fun e =>
      build_rows kcmp e.2 (rank_files e.2) frecency
        (mkNameCounts (e.2.map Prod.fst)) definition_lines)).flatten
  have hrow' := hperm.mem_iff.mp hrow
  obtain ⟨l, hl, hrl⟩ := List.mem_flatten.mp hrow'
  obtain ⟨e, _, hle⟩ := List.mem_map.mp hl
  exact ⟨e.2, hle ▸ hrl⟩

/-- Claim C2 amended: whenever the per-ecosystem ranker and the frecency
mapping yield only finite (non-NaN) values, the pipeline rows are sorted
by rank descending (NaN would compare as equal) with ties broken by the
ascending tuple (definition.path, line, column, name) where path and name
compare AS INTERNER HANDLES (order of first interning), and every row
reference list is sorted ascending by the same handle-ordered tuple. -/
theorem rows_sorted_by_handle_order
    (rank_files : List (Loc Nat × List (Loc Nat)) → List (Nat × F))
    (edges : List (ReferenceEdge Nat)) (frecency : List (Nat × F))
    (definition_lines : List (Loc Nat × String))
    (hR : ∀ g p v, (p, v) ∈ rank_files g → ∃ q, v = some q)
    (hF : ∀ p v, (p, v) ∈ frecency → ∃ q, v = some q) :
    (rowsFromScan ncmp rank_files edges frecency definition_lines).Pairwise
        (fun a b => cmpRows ncmp a b ≠ .gt) ∧
      ∀ row ∈ rowsFromScan ncmp rank_files edges frecency definition_lines,
        row.references.Pairwise (fun x y => cmpKeyLoc ncmp x y ≠ .gt) := by
  have hfinflat : ∀ row ∈ ((group_edges_by_ecosystem edges).map (fun e =>
      build_rows ncmp e.2 (rank_files e.2) frecency
        (mkNameCounts (e.2.map Prod.fst)) definition_lines)).flatten,
      ∃ q, row.rank = some q := by
    intro row hrow
    obtain ⟨l, hl, hrl⟩ := List.mem_flatten.mp hrow
    obtain ⟨e, _, hle⟩ := List.mem_map.mp hl
    exact build_rows_rank_fin ncmp e.2 (rank_files e.2) frecency
      (mkNameCounts (e.2.map Prod.fst)) definition_lines (hR e.2) hF row
      (hle ▸ hrl)
  constructor
  · unfold rowsFromScan sortByCmp
    refine pairwise_insertionSort _ _ ?_ ?_
    · intro a ha b hb
      exact leRowN_total_of_fin a b (hfinflat a ha) (hfinflat b hb)
    · intro a ha b hb c hc
      exact leRowN_trans_of_fin a b c (hfinflat a ha) (hfinflat b hb)
        (hfinflat c hc)
  · intro row hrow
    obtain ⟨g, hg⟩ := rowsFromScan_mem ncmp rank_files edges frecency
      definition_lines row hrow
    obtain ⟨e, _, he⟩ := List.mem_map.mp hg
    have hrefs : row.references = sortByCmp (cmpKeyLoc ncmp) e.2 := by
      rw [← he]
    rw [hrefs]
    unfold sortByCmp
    refine pairwise_insertionSort _ _ ?_ ?_
    · intro a _ b _
      exact leLocKeyN_total a b
    · intro a _ b _ c _
      exact leLocKeyN_trans a b c

/-- A concrete ranker for the claim C2 scenario: every file ranks 1. -/
def c2Rank : List (Loc Nat × List (Loc Nat)) → List (Nat × F) := fun _ =>
  [(0, some 1), (1, some 1), (3, some 1)]

/-- The interner state of the claim C2 scenario: the user file c.py was
scanned first, so "b.py" received a smaller handle than "a.py". -/
def c2St : InternerState := ["c.py", "b.py", "foo", "a.py"]

/-- Definition of foo in b.py (path handle 1, name handle 2). -/
def c2D1 : HLoc := ⟨1, 1, 5, 2⟩
/-- Definition of foo in a.py (path handle 3, name handle 2). -/
def c2D2 : HLoc := ⟨3, 1, 5, 2⟩
/-- Use of foo in c.py line 3 (path handle 0). -/
def c2U1 : HLoc := ⟨0, 3, 1, 2⟩
/-- Use of foo in c.py line 4 (path handle 0). -/
def c2U2 : HLoc := ⟨0, 4, 1, 2⟩

def c2Edges : List (ReferenceEdge Nat) :=
  [{ definition := c2D1, usage := c2U1, ecosystem := .python },
   { definition := c2D2, usage := c2U2, ecosystem := .python }]

/-- Witness for the amended claim C2 at the concrete two-definition tie. -/
theorem rows_sorted_by_handle_order_witness :
    (rowsFromScan ncmp c2Rank c2Edges [] []).Pairwise
        (fun a b => cmpRows ncmp a b ≠ .gt) ∧
      ∀ row ∈ rowsFromScan ncmp c2Rank c2Edges [] [],
        row.references.Pairwise (fun x y => cmpKeyLoc ncmp x y ≠ .gt) := by
  refine rows_sorted_by_handle_order c2Rank c2Edges [] [] ?_ ?_
  · intro g p v hv
    simp only [c2Rank, List.mem_cons, List.not_mem_nil, or_false,
      Prod.mk.injEq] at hv
    rcases hv with ⟨_, hv⟩ | ⟨_, hv⟩ | ⟨_, hv⟩ <;> exact ⟨1, hv⟩
  · intro p v hv
    simp at hv

/-- Character comparison by unicode scalar value (the order Rust gives
bytes of ASCII strings). -/
def charCmp (a b : Char) : Ordering := ncmp a.toNat b.toNat

/-- Lexicographic string comparison, the claim reading of "ascending by
path" and "ascending by name" over the resolved strings. -/
def strCmpChars : List Char → List Char → Ordering
  | [], [] => .eq
  | [], _ :: _ => .lt
  | _ :: _, [] => .gt
  | a :: as, b :: bs => (charCmp a b).then (strCmpChars as bs)

def scmp (a b : String) : Ordering := strCmpChars a.data b.data

/-- Resolve both handles of a location back to strings. -/
def resolveLoc (st : InternerState) (l : HLoc) : Loc String :=
  { path := resolve st l.path, line := l.line, column := l.column,
    name := resolve st l.name }

/-- The ordering claim C2 states, read over resolved path and name
strings: rank descending with NaN as equal, ties ascending by the
resolved (path, line, column, name). -/
def claimRowLe (st : InternerState) (a b : OutputRow Nat) : Prop :=
  (((pcmpF b.rank a.rank).getD .eq).then
    (cmpKeyLoc scmp (resolveLoc st a.definition) (resolveLoc st b.definition)))
    ≠ .gt

theorem pcmpF_getD_self (x : F) (q : ℚ) (hx : x = some q) :
    (pcmpF x x).getD .eq = .eq := by
  subst hx
  show (some (qcmp q q)).getD .eq = .eq
  rw [Option.getD_some, (qcmp_eq_eq q q).mpr rfl]

def c2Grouped : List (Loc Nat × List (Loc Nat)) := [(c2D1, [c2U1]), (c2D2, [c2U2])]

def c2DefaultRow : OutputRow Nat :=
  { rank := none, local_score := none, file_rank := none, definition := c2D1,
    definition_line := "", references := [] }

/-- The first row the pipeline builds (definition in b.py, handle 1). -/
def c2R1 : OutputRow Nat :=
  (build_rows ncmp [(c2D1, [c2U1])] (c2Rank c2Grouped) []
    (mkNameCounts (c2Grouped.map Prod.fst)) []).headD c2DefaultRow

/-- The second row the pipeline builds (definition in a.py, handle 3). -/
def c2R2 : OutputRow Nat :=
  (build_rows ncmp [(c2D2, [c2U2])] (c2Rank c2Grouped) []
    (mkNameCounts (c2Grouped.map Prod.fst)) []).headD c2DefaultRow

/-- Claim C2 as stated is false: with equal ranks, the row whose
definition path resolves to "b.py" (interned first, handle 1) is emitted
BEFORE the row whose path resolves to "a.py" (handle 3), so the tie-break
is not ascending in the path strings — it is ascending in the interner
handles. -/
theorem rows_not_sorted_by_path_strings :
    c2R2.rank = c2R1.rank ∧
      resolve c2St c2R1.definition.path = "b.py" ∧
      resolve c2St c2R2.definition.path = "a.py" ∧
      scmp "a.py" "b.py" = .lt ∧
      ¬ (rowsFromScan ncmp c2Rank c2Edges [] []).Pairwise (claimRowLe c2St) := by
  have hq : c2R2.rank = c2R1.rank := rfl
  obtain ⟨q, hq1⟩ : ∃ q, c2R1.rank = some q := ⟨_, rfl⟩
  have hkey : cmpKeyLoc ncmp c2R1.definition c2R2.definition = .lt := by decide
  have hcmp : cmpRows ncmp c2R1 c2R2 = .lt := by
    unfold cmpRows
    rw [hq, pcmpF_getD_self c2R1.rank q hq1]
    show cmpKeyLoc ncmp c2R1.definition c2R2.definition = .lt
    exact hkey
  have hrel : cmpRows ncmp c2R1 c2R2 ≠ .gt := by
    rw [hcmp]; decide
  have hsort : rowsFromScan ncmp c2Rank c2Edges [] [] = [c2R1, c2R2] := by
    show sortByCmp (cmpRows ncmp) [c2R1, c2R2] = [c2R1, c2R2]
    unfold sortByCmp
    simp only [List.insertionSort, List.orderedInsert]
    rw [if_pos hrel]
  refine ⟨hq, by decide, by decide, by decide, ?_⟩
  intro hpair
  rw [hsort] at hpair
  have hclaim := (List.pairwise_cons.mp hpair).1 c2R2 (List.mem_cons_self _ _)
  apply hclaim
  show (((pcmpF c2R2.rank c2R1.rank).getD .eq).then
    (cmpKeyLoc scmp (resolveLoc c2St c2R1.definition)
      (resolveLoc c2St c2R2.definition))) = .gt
  rw [hq, pcmpF_getD_self c2R1.rank q hq1]
  show cmpKeyLoc scmp (resolveLoc c2St c2R1.definition)
    (resolveLoc c2St c2R2.definition) = .gt
  decide

end Cruxlines
